import Mathlib

/-!
Verification of the spritesheet rebuilder (src/main.py).

The development shallowly embeds the two core functions of the program:

* `get_connected_regions` (main.py lines 49-79): 8-connected BFS flood fill
  over the transparency mask of an RGBA image, returning the bounding boxes
  of the maximal connected groups of non-transparent pixels, in row-major
  discovery order.
* `pad_frame_to_size` (lines 81-88) and `crop_and_process` (lines 90-120):
  the crop / scale / sort / normalize / replicate / grid-placement pipeline.

Python conventions mirrored here:
* Python ints are `Int`; pixel coordinates are `Int × Int` (x, y).
* Python `//` and `%` are floor division and floor modulus: `Int.fdiv`,
  `Int.fmod`.
* `int(q)` applied to a non-negative rational truncates toward zero, which
  is `Int.tdiv q.num q.den` (and equals the floor for `q ≥ 0`).
* Code raising an exception is embedded as an `Option`-valued function
  returning `none` at that point.
* The imaging library (PIL) is the external collaborator of spec section 6:
  `crop`, `paste`, `new` and `resize` are embedded with PIL's documented
  size/clipping semantics (paste clips to the destination image; crop and
  pixel reads outside the source read transparent black).
-/

namespace Sprite

/-- A pixel: the four RGBA channels. The alpha channel is the fourth. -/
abbrev Pix : Type := Nat × Nat × Nat × Nat

/-- An RGBA image: `img.size` in Python is `(width, height)`, and
`pixels[x, y]` is `px x y`.  Reads outside the rectangle
`[0, width) × [0, height)` are transparent black, matching PIL. -/
structure Img where
  width : Nat
  height : Nat
  px : Int → Int → Pix

/-- Pixel access with PIL's out-of-bounds convention (transparent black). -/
def Img.read (img : Img) (x y : Int) : Pix :=
  if 0 ≤ x ∧ x < (img.width : Int) ∧ 0 ≤ y ∧ y < (img.height : Int) then
    img.px x y
  else (0, 0, 0, 0)

/-- A coordinate `(x, y)` in an image, as Python integers. -/
abbrev Coord : Type := Int × Int

/-- A region tuple `(xmin, ymin, xmax + 1, ymax + 1)` as produced by
`get_connected_regions`: upper bounds are exclusive. -/
structure Region where
  x0 : Int
  y0 : Int
  x1 : Int
  y1 : Int
deriving DecidableEq

/-- The bound check `is_valid(x, y)` from main.py line 54. -/
def isValid (img : Img) (c : Coord) : Prop :=
  0 ≤ c.1 ∧ c.1 < (img.width : Int) ∧ 0 ≤ c.2 ∧ c.2 < (img.height : Int)

instance (img : Img) (c : Coord) : Decidable (isValid img c) := by
  unfold isValid; infer_instance

/-- The alpha channel of the pixel at `c` (`pixels[x, y][3]`). -/
def alphaAt (img : Img) (c : Coord) : Nat :=
  (img.px c.1 c.2).2.2.2

/-- The mask test `is_nontransparent(x, y)` from main.py line 56: alpha is non-zero. -/
def isFg (img : Img) (c : Coord) : Prop :=
  alphaAt img c ≠ 0

instance (img : Img) (c : Coord) : Decidable (isFg img c) := by
  unfold isFg; infer_instance

/-- A foreground pixel of the image: in bounds with non-zero alpha. -/
def FgV (img : Img) (c : Coord) : Prop :=
  isValid img c ∧ isFg img c

instance (img : Img) (c : Coord) : Decidable (FgV img c) := by
  unfold FgV; infer_instance

/-- The neighbour offsets `(dx, dy)` of the doubly nested loop at
main.py lines 67-68, in loop order, with `(0, 0)` excluded (line 70). -/
def deltas : List Coord :=
  [(-1, -1), (-1, 0), (-1, 1), (0, -1), (0, 1), (1, -1), (1, 0), (1, 1)]

/-- The eight 8-connected neighbours of a coordinate, in scan order. -/
def nbrList (c : Coord) : List Coord :=
  deltas.map (fun d => (c.1 + d.1, c.2 + d.2))

/-- Adjacency in the 8-connected sense: `b` is one of the eight neighbours of `a`. -/
def Adj (a b : Coord) : Prop :=
  b ∈ nbrList a

/-- One step of the flood fill: move to an adjacent foreground pixel. -/
def Step (img : Img) (a b : Coord) : Prop :=
  FgV img b ∧ Adj a b

/-- Pixels `a` and `b` are in the same 8-connected group of foreground pixels. -/
def Conn (img : Img) (a b : Coord) : Prop :=
  FgV img a ∧ Relation.ReflTransGen (Step img) a b

/-- The finite set of in-bounds coordinates of an image. -/
def validCells (img : Img) : Finset Coord :=
  (Finset.range img.width ×ˢ Finset.range img.height).image
    (fun p => ((p.1 : Int), (p.2 : Int)))

/-- The state of one breadth-first traversal (main.py lines 61-77):
the visited mask, the queue, and the running bounding box. -/
structure BfsState where
  visited : Finset Coord
  queue : List Coord
  xlo : Int
  xhi : Int
  ylo : Int
  yhi : Int

/-- The inner double loop of main.py lines 67-77: visit every unvisited
valid foreground neighbour of `c`, mark it, enqueue it, and extend the
running bounding box.  `ds` is instantiated with `deltas`. -/
def visitNbrs (img : Img) (c : Coord) (ds : List Coord) (s : BfsState) : BfsState :=
  ds.foldl
    (fun s d =>
      let n : Coord := (c.1 + d.1, c.2 + d.2)
      if isValid img n ∧ n ∉ s.visited ∧ isFg img n then
        { visited := insert n s.visited
          queue := s.queue ++ [n]
          xlo := min s.xlo n.1
          xhi := max s.xhi n.1
          ylo := min s.ylo n.2
          yhi := max s.yhi n.2 }
      else s)
    s

/-- The `while q:` loop of main.py lines 65-77.  The loop runs at most
`width * height + 1` times (each iteration pops one queue entry, and every
enqueued entry is a freshly visited in-bounds cell), so the structural
fuel never runs out when the function is applied below. -/
def bfsRun (img : Img) : Nat → BfsState → BfsState
  | 0, s => s
  | fuel + 1, s =>
    match s.queue with
    | [] => s
    | c :: rest => bfsRun img fuel (visitNbrs img c deltas { s with queue := rest })

/-- The row-major scan order of the outer loops at main.py lines 58-59:
`y` outer, `x` inner. -/
def scanCoords (img : Img) : List Coord :=
  (List.range img.height).flatMap
    (fun (y : Nat) => (List.range img.width).map (fun (x : Nat) => ((x : Int), (y : Int))))

/-- The body of the scan loop (main.py lines 60-78): on an unvisited
foreground pixel, run a BFS from it and append the discovered region. -/
def scanStep (img : Img) (acc : Finset Coord × List Region) (c : Coord) :
    Finset Coord × List Region :=
  if c ∉ acc.1 ∧ isFg img c then
    let s := bfsRun img (img.width * img.height + 1)
      { visited := insert c acc.1, queue := [c]
        xlo := c.1, xhi := c.1, ylo := c.2, yhi := c.2 }
    (s.visited, acc.2 ++ [⟨s.xlo, s.ylo, s.xhi + 1, s.yhi + 1⟩])
  else acc

/-- The function `get_connected_regions(img)` from main.py lines 49-79. -/
def get_connected_regions (img : Img) : List Region :=
  ((scanCoords img).foldl (scanStep img) (∅, [])).2

/-! ## The composition pipeline (main.py lines 81-120) -/

/-- The layout configuration consumed by `crop_and_process`
(the resolved `config` dictionary of main.py lines 27-47). -/
structure LayoutConfig where
  scale_factor : ℚ
  target_padding : Int
  output_columns : Option Int
  output_rows : Option Int
  sort_by_position : Bool
  frame_repeat : Int

/-- PIL `img.crop(box)`: the sub-image of size
`(x1 - x0, y1 - y0)` whose pixel `(x, y)` is the source pixel
`(x0 + x, y0 + y)`, transparent black outside the source. -/
def crop (img : Img) (r : Region) : Img :=
  { width := (r.x1 - r.x0).toNat
    height := (r.y1 - r.y0).toNat
    px := fun x y => img.read (r.x0 + x) (r.y0 + y) }

/-- A fresh fully transparent canvas:
`Image.new("RGBA", (w, h), (0, 0, 0, 0))`. -/
def newImg (w h : Nat) : Img :=
  { width := w, height := h, px := fun _ _ => (0, 0, 0, 0) }

/-- PIL `base.paste(fr, (ox, oy))`: overwrite the rectangle of `base`
covered by `fr` placed at offset `(ox, oy)`, clipped to `base`. -/
def paste (base : Img) (fr : Img) (ox oy : Int) : Img :=
  { width := base.width
    height := base.height
    px := fun x y =>
      if ox ≤ x ∧ x < ox + (fr.width : Int) ∧ oy ≤ y ∧ y < oy + (fr.height : Int) ∧
          0 ≤ x ∧ x < (base.width : Int) ∧ 0 ≤ y ∧ y < (base.height : Int) then
        fr.px (x - ox) (y - oy)
      else base.px x y }

/-- PIL `frame.resize((w, h), Image.NEAREST)` (external collaborator of
spec section 6): only the size of the result is relied on by the claims;
the sampling is nearest-neighbour. -/
def resize (img : Img) (w h : Nat) : Img :=
  { width := w
    height := h
    px := fun x y =>
      img.read ((x * img.width) / (w : Int)) ((y * img.height) / (h : Int)) }

/-- Python `int(q)` on a rational: truncation toward zero.  `Int.tdiv`
truncates toward zero and `q.den > 0`, so this is `q.num` T-divided by
`q.den` (for `q ≥ 0` it coincides with the floor). -/
def pyInt (q : ℚ) : Int :=
  Int.tdiv q.num (q.den : Int)

/-- One step of the scaling loop at main.py lines 94-97:
`frame.resize((int(w * s), int(h * s)), Image.NEAREST)`.
PIL rejects any resize target dimension below 1 with
`ValueError: height and width must be > 0` (which is why
`Image.thumbnail` clamps its sizes to at least 1), hence `none` when a
computed dimension is zero or negative. -/
def scaleFrame (s : ℚ) (f : Img) : Option Img :=
  let w := pyInt ((f.width : ℚ) * s)
  let h := pyInt ((f.height : ℚ) * s)
  if w < 1 ∨ h < 1 then none
  else some (resize f w.toNat h.toNat)

/-- The scaling loop of main.py lines 93-98. -/
def scaleAll (s : ℚ) : List Img → Option (List Img)
  | [] => some []
  | f :: fs =>
    match scaleFrame s f with
    | none => none
    | some g =>
      match scaleAll s fs with
      | none => none
      | some gs => some (g :: gs)

/-- The scale stage (main.py lines 92-98): frames are resized only when
`scale_factor != 1`. -/
def scaleStage (s : ℚ) (frames : List Img) : Option (List Img) :=
  if s ≠ 1 then scaleAll s frames else some frames

/-- The sort key of main.py line 100: `(region.ymin, region.xmin)`,
compared lexicographically (Python tuple comparison). -/
def sortKey (p : Region × Img) : Int × Int :=
  (p.1.y0, p.1.x0)

/-- The non-strict lexicographic order on sort keys. -/
def keyLe (p q : Region × Img) : Prop :=
  (sortKey p).1 < (sortKey q).1 ∨
    ((sortKey p).1 = (sortKey q).1 ∧ (sortKey p).2 ≤ (sortKey q).2)

instance : DecidableRel keyLe := by
  unfold keyLe; infer_instance

/-- Python `sorted(zip(regions, frames), key=lambda pair: (pair[0][1], pair[0][0]))`
(main.py line 100).  Python's sort is a stable sort by the key; a stable
sort's output is uniquely determined by the key order, so it is embedded
as the stable `List.insertionSort`. -/
def pySorted (pairs : List (Region × Img)) : List (Region × Img) :=
  List.insertionSort keyLe pairs

/-- The sort stage (main.py lines 99-100). -/
def sortStage (b : Bool) (pairs : List (Region × Img)) : List (Region × Img) :=
  if b then pySorted pairs else pairs

/-- Python `max(f.width for f in frames)` over a non-empty list (main.py
line 101); widths are naturals so the fold from 0 is the maximum. -/
def maxW (frames : List Img) : Nat :=
  frames.foldl (fun m f => max m f.width) 0

/-- Python `max(f.height for f in frames)` (main.py line 102). -/
def maxH (frames : List Img) : Nat :=
  frames.foldl (fun m f => max m f.height) 0

/-- The function `pad_frame_to_size(frame, target_size)` from main.py lines 81-88:
centre the frame on a fresh transparent canvas of the target size
(Python `//` is floor division, `Int.fdiv`). -/
def pad_frame_to_size (frame : Img) (target_w target_h : Nat) : Img :=
  let x := Int.fdiv ((target_w : Int) - (frame.width : Int)) 2
  let y := Int.fdiv ((target_h : Int) - (frame.height : Int)) 2
  paste (newImg target_w target_h) frame x y

/-- The replication loop of main.py lines 104-107; Python `[f] * r` is
empty for `r ≤ 0`, hence `r.toNat`. -/
def repStage (r : Int) (frames : List Img) : List Img :=
  frames.flatMap (fun f => List.replicate r.toNat f)

/-- Python `config["output_columns"] or int(total ** 0.5)` (main.py line 109):
`None` and `0` are falsy.  `int(total ** 0.5)` is the integer square
root (exact for every frame count representable in a double). -/
def resolveCols (oc : Option Int) (total : Nat) : Int :=
  match oc with
  | some c => if c = 0 then (Nat.sqrt total : Int) else c
  | none => (Nat.sqrt total : Int)

/-- The canvas allocation and paste loop of main.py lines 111-120.
`Image.new` raises on a negative size (first guard); `i % cols` raises
`ZeroDivisionError` when `cols` is zero and the loop body runs at least
once (second guard). -/
def gridPlace (frames : List Img) (mw mh : Nat) (cols rows pad : Int) : Option Img :=
  let new_w := cols * ((mw : Int) + pad) - pad
  let new_h := rows * ((mh : Int) + pad) - pad
  if new_w < 0 ∨ new_h < 0 then none
  else if cols = 0 ∧ ¬frames.isEmpty then none
  else
    some (frames.enum.foldl
      (fun canv p =>
        let col := Int.fmod (p.1 : Int) cols
        let row := Int.fdiv (p.1 : Int) cols
        paste canv p.2 (col * ((mw : Int) + pad)) (row * ((mh : Int) + pad)))
      (newImg new_w.toNat new_h.toNat))

/-- The function `crop_and_process(img, regions, config)` from main.py lines 90-120.
`none` marks the points where the Python code raises: unpacking/`max()`
on an empty frame list (lines 100-101), a resize target dimension
below 1 (PIL rejects it), `ZeroDivisionError` in the row computation,
and a negative canvas size in `Image.new`. -/
def crop_and_process (img : Img) (regions : List Region) (config : LayoutConfig) :
    Option Img :=
  let frames0 := regions.map (fun box => crop img box)
  match scaleStage config.scale_factor frames0 with
  | none => none
  | some frames1 =>
    let pairs := sortStage config.sort_by_position (regions.zip frames1)
    match pairs with
    | [] => none
    | _ :: _ =>
      let frames2 := pairs.map Prod.snd
      let mw := maxW frames2
      let mh := maxH frames2
      let frames3 := frames2.map (fun f => pad_frame_to_size f mw mh)
      let frames4 := repStage config.frame_repeat frames3
      let total := frames4.length
      let cols := resolveCols config.output_columns total
      match config.output_rows with
      | some r =>
        if r = 0 then
          if cols = 0 then none
          else gridPlace frames4 mw mh cols (Int.fdiv ((total : Int) + cols - 1) cols)
            config.target_padding
        else gridPlace frames4 mw mh cols r config.target_padding
      | none =>
        if cols = 0 then none
        else gridPlace frames4 mw mh cols (Int.fdiv ((total : Int) + cols - 1) cols)
          config.target_padding

/-- A set of cells closed under flood-fill steps (a union of complete
connected groups). -/
def ClosedSet (img : Img) (V : Finset Coord) : Prop :=
  ∀ a ∈ V, ∀ b, Step img a b → b ∈ V

/-- The cells freshly visited while processing the queue entry `c` with
visited set `V`: the valid, unvisited, foreground neighbours of `c`, in
the loop order of main.py lines 67-73. -/
def newCells (img : Img) (c : Coord) (V : Finset Coord) : List Coord :=
  (nbrList c).filter (fun n => decide (isValid img n ∧ n ∉ V ∧ isFg img n))

/-- The termination measure of the `while` loop: unvisited in-bounds
cells plus pending queue entries. -/
def bMeasure (img : Img) (s : BfsState) : Nat :=
  (validCells img \ s.visited).card + s.queue.length

/-- The successor state of one iteration of the `while` loop that pops
`c` leaving `rest`. -/
def stepState (img : Img) (c : Coord) (rest : List Coord) (s : BfsState) : BfsState :=
  { visited := s.visited ∪ (newCells img c s.visited).toFinset
    queue := rest ++ newCells img c s.visited
    xlo := (newCells img c s.visited).foldl (fun m n => min m n.1) s.xlo
    xhi := (newCells img c s.visited).foldl (fun m n => max m n.1) s.xhi
    ylo := (newCells img c s.visited).foldl (fun m n => min m n.2) s.ylo
    yhi := (newCells img c s.visited).foldl (fun m n => max m n.2) s.yhi }

/-- The loop invariant of one breadth-first traversal started at `c0`
with the pre-existing visited set `V0`. -/
structure BfsInv (img : Img) (V0 : Finset Coord) (c0 : Coord) (s : BfsState) : Prop where
  subset : V0 ⊆ s.visited
  start : c0 ∈ s.visited
  startNot : c0 ∉ V0
  conn : ∀ a, a ∈ s.visited → a ∉ V0 → Conn img c0 a
  qmem : ∀ a ∈ s.queue, a ∈ s.visited ∧ a ∉ V0
  frontier : ∀ a, a ∈ s.visited → a ∉ V0 →
    ∀ n, Step img a n → n ∈ s.visited ∨ a ∈ s.queue
  blo : ∀ a, a ∈ s.visited → a ∉ V0 →
    s.xlo ≤ a.1 ∧ a.1 ≤ s.xhi ∧ s.ylo ≤ a.2 ∧ a.2 ≤ s.yhi
  xlo_mem : ∃ a, a ∈ s.visited ∧ a ∉ V0 ∧ a.1 = s.xlo
  xhi_mem : ∃ a, a ∈ s.visited ∧ a ∉ V0 ∧ a.1 = s.xhi
  ylo_mem : ∃ a, a ∈ s.visited ∧ a ∉ V0 ∧ a.2 = s.ylo
  yhi_mem : ∃ a, a ∈ s.visited ∧ a ∉ V0 ∧ a.2 = s.yhi

/-- The cell visited at step `i` of the row-major scan. -/
def coordOfIdx (w : Nat) (i : Nat) : Coord :=
  (((i % w : Nat) : Int), ((i / w : Nat) : Int))

/-- The row-major rank of a cell: `y * width + x`. -/
def scanIdx (img : Img) (c : Coord) : Int :=
  c.2 * (img.width : Int) + c.1

/-- Region `r` is the tight bounding box, with exclusive upper bounds, of the
connected group of `c`. -/
def RegionSpec (img : Img) (c : Coord) (r : Region) : Prop :=
  (∀ b, Conn img c b → r.x0 ≤ b.1 ∧ b.1 < r.x1 ∧ r.y0 ≤ b.2 ∧ b.2 < r.y1) ∧
  (∃ b, Conn img c b ∧ b.1 = r.x0) ∧ (∃ b, Conn img c b ∧ b.1 = r.x1 - 1) ∧
  (∃ b, Conn img c b ∧ b.2 = r.y0) ∧ (∃ b, Conn img c b ∧ b.2 = r.y1 - 1)

/-- The invariant of the outer scan loop after `n` cells were scanned. -/
structure ScanInv (img : Img) (n : Nat) (vis : Finset Coord) (regions : List Region)
    (roots : List Coord) : Prop where
  mem_iff : ∀ a, a ∈ vis ↔ ∃ c ∈ roots, Conn img c a
  boxes : List.Forall₂ (RegionSpec img) roots regions
  rootsFg : ∀ c ∈ roots, FgV img c
  scanlt : ∀ c ∈ roots, scanIdx img c < (n : Int)
  sorted : roots.Pairwise (fun a b => scanIdx img a < scanIdx img b)
  minimal : ∀ c ∈ roots, ∀ b, Conn img c b → scanIdx img c ≤ scanIdx img b
  covered : ∀ b, FgV img b → scanIdx img b < (n : Int) → b ∈ vis

/-- Membership of a coordinate in a region rectangle (upper bounds
exclusive). -/
def inRect (c : Coord) (r : Region) : Prop :=
  r.x0 ≤ c.1 ∧ c.1 < r.x1 ∧ r.y0 ≤ c.2 ∧ c.2 < r.y1

instance (c : Coord) (r : Region) : Decidable (inRect c r) := by
  unfold inRect; infer_instance

/-- A 5×5 test image: a U shape (left column, right column, bottom row)
plus an isolated dot at (2, 1) inside the mouth of the U. -/
def imgU : Img :=
  { width := 5, height := 5,
    px := fun x y =>
      if x = 0 ∨ x = 4 ∨ y = 4 ∨ (x = 2 ∧ y = 1) then (1, 2, 3, 9) else (0, 0, 0, 0) }

/-- A 3×1 test image with two isolated opaque pixels at x = 0 and x = 2. -/
def imgTwoDots : Img :=
  { width := 3, height := 1,
    px := fun x _ => if x = 0 ∨ x = 2 then (0, 0, 0, 255) else (0, 0, 0, 0) }

instance : IsTotal (Region × Img) keyLe := by
  refine ⟨fun p q => ?_⟩
  unfold keyLe sortKey
  dsimp only
  omega

instance : IsTrans (Region × Img) keyLe := by
  refine ⟨fun p q r h1 h2 => ?_⟩
  unfold keyLe sortKey at *
  dsimp only at *
  omega

/-- The frame list used by the C7 witness. -/
def framesC7 : List Img :=
  [crop imgTwoDots ⟨0, 0, 1, 1⟩, newImg 3 3]

/-- A 1×1 image with a single opaque pixel. -/
def imgOneDot : Img :=
  { width := 1, height := 1, px := fun _ _ => (5, 5, 5, 7) }

/-- Configuration with `scale_factor = 1/2` and all other options at
their defaults except sorting (off, which does not matter for one
frame). -/
def cfgHalf : LayoutConfig :=
  { scale_factor := 1/2, target_padding := 0, output_columns := none,
    output_rows := none, sort_by_position := false, frame_repeat := 1 }

/-- Configuration with explicit `columns = 1` and `rows = 1`. -/
def cfgGrid11 : LayoutConfig :=
  { scale_factor := 1, target_padding := 0, output_columns := some 1,
    output_rows := some 1, sort_by_position := false, frame_repeat := 1 }

/-- Written from the claim wording, for comparison with the code: the
resolved column count is `config.columns` if specified, else
`floor (sqrt total)`. -/
def colsSpec (oc : Option Int) (total : Nat) : Int :=
  match oc with
  | some c => c
  | none => (Nat.sqrt total : Int)

/-- Written from the claim wording, for comparison with the code: the
resolved row count is `config.rows` if specified, else
`ceil (total / columns)`. -/
def rowsSpec (orows : Option Int) (cols : Int) (total : Nat) : Int :=
  match orows with
  | some r => r
  | none => (((total + cols.toNat - 1) / cols.toNat : Nat) : Int)

/-- The default configuration (main.py lines 27-37) used by the C5
witness: scale 1, padding 1, auto grid, sorting on, no replication. -/
def cfgDefault : LayoutConfig :=
  { scale_factor := 1, target_padding := 1, output_columns := none,
    output_rows := none, sort_by_position := true, frame_repeat := 1 }

/-! ## Basic facts about adjacency and connectivity -/

theorem deltas_nodup : deltas.Nodup := by decide

theorem mem_nbrList {a b : Coord} :
    b ∈ nbrList a ↔ ∃ d ∈ deltas, b = (a.1 + d.1, a.2 + d.2) := by
  simp only [nbrList, List.mem_map]
  constructor
  · rintro ⟨d, hd, rfl⟩; exact ⟨d, hd, rfl⟩
  · rintro ⟨d, hd, rfl⟩; exact ⟨d, hd, rfl⟩

theorem nbrList_nodup (c : Coord) : (nbrList c).Nodup := by
  refine List.Nodup.map ?_ deltas_nodup
  intro d e h
  have h1 : c.1 + d.1 = c.1 + e.1 := congrArg Prod.fst h
  have h2 : c.2 + d.2 = c.2 + e.2 := congrArg Prod.snd h
  exact Prod.ext (by omega) (by omega)

theorem neg_mem_deltas : ∀ d ∈ deltas, ((-d.1, -d.2) : Coord) ∈ deltas := by
  decide

theorem adj_symm {a b : Coord} (h : Adj a b) : Adj b a := by
  rcases mem_nbrList.mp h with ⟨d, hd, rfl⟩
  refine mem_nbrList.mpr ⟨(-d.1, -d.2), neg_mem_deltas d hd, ?_⟩
  refine Prod.ext ?_ ?_ <;> simp

theorem conn_fgV {img : Img} {a b : Coord} (h : Conn img a b) : FgV img b := by
  rcases h with ⟨hfa, hpath⟩
  induction hpath with
  | refl => exact hfa
  | tail _ hstep _ => exact hstep.1

theorem conn_refl {img : Img} {a : Coord} (h : FgV img a) : Conn img a a :=
  ⟨h, Relation.ReflTransGen.refl⟩

theorem conn_tail {img : Img} {a b c : Coord} (h : Conn img a b)
    (hs : Step img b c) : Conn img a c :=
  ⟨h.1, h.2.tail hs⟩

theorem conn_trans {img : Img} {a b c : Coord} (h1 : Conn img a b)
    (h2 : Conn img b c) : Conn img a c :=
  ⟨h1.1, h1.2.trans h2.2⟩

theorem conn_symm {img : Img} {a b : Coord} (h : Conn img a b) : Conn img b a := by
  rcases h with ⟨hfa, hpath⟩
  refine ⟨conn_fgV ⟨hfa, hpath⟩, ?_⟩
  induction hpath with
  | refl => exact Relation.ReflTransGen.refl
  | @tail m n hpath hstep ih =>
    have hfm : FgV img m := conn_fgV ⟨hfa, hpath⟩
    exact Relation.ReflTransGen.head ⟨hfm, adj_symm hstep.2⟩ ih


theorem ClosedSet.mem_of_conn {img : Img} {V : Finset Coord}
    (hV : ClosedSet img V) {a b : Coord} (ha : a ∈ V) (h : Conn img a b) :
    b ∈ V := by
  rcases h with ⟨_, hpath⟩
  induction hpath with
  | refl => exact ha
  | tail _ hstep ih => exact hV _ ih _ hstep

theorem conn_notin_closed {img : Img} {V : Finset Coord}
    (hV : ClosedSet img V) {a b : Coord} (ha : a ∉ V) (h : Conn img a b) :
    b ∉ V := fun hb => ha (hV.mem_of_conn hb (conn_symm h))

theorem mem_validCells {img : Img} {c : Coord} :
    c ∈ validCells img ↔ isValid img c := by
  obtain ⟨cx, cy⟩ := c
  simp only [validCells, Finset.mem_image, Finset.mem_product, Finset.mem_range, isValid,
    Prod.mk.injEq, Prod.exists]
  constructor
  · rintro ⟨x, y, ⟨hx, hy⟩, rfl, rfl⟩
    exact ⟨Int.ofNat_nonneg x, by exact_mod_cast hx, Int.ofNat_nonneg y, by exact_mod_cast hy⟩
  · rintro ⟨h1, h2, h3, h4⟩
    exact ⟨cx.toNat, cy.toNat, ⟨by omega, by omega⟩, by omega, by omega⟩

theorem card_validCells (img : Img) :
    (validCells img).card ≤ img.width * img.height := by
  calc (validCells img).card
      ≤ (Finset.range img.width ×ˢ Finset.range img.height).card :=
        Finset.card_image_le
    _ = img.width * img.height := by
        rw [Finset.card_product, Finset.card_range, Finset.card_range]

/-! ## Fold helpers for the running bounding box -/

theorem foldl_min_le {α : Type} (f : α → Int) :
    ∀ (l : List α) (m : Int),
      l.foldl (fun m n => min m (f n)) m ≤ m ∧
        ∀ n ∈ l, l.foldl (fun m n => min m (f n)) m ≤ f n := by
  intro l
  induction l with
  | nil => intro m; exact ⟨le_refl m, by simp⟩
  | cons a l ih =>
    intro m
    obtain ⟨h1, h2⟩ := ih (min m (f a))
    refine ⟨le_trans h1 (min_le_left _ _), ?_⟩
    intro n hn
    rcases List.mem_cons.mp hn with rfl | hn
    · exact le_trans h1 (min_le_right _ _)
    · exact h2 n hn

theorem foldl_min_attain {α : Type} (f : α → Int) :
    ∀ (l : List α) (m : Int),
      l.foldl (fun m n => min m (f n)) m = m ∨
        ∃ n ∈ l, l.foldl (fun m n => min m (f n)) m = f n := by
  intro l
  induction l with
  | nil => intro m; exact Or.inl rfl
  | cons a l ih =>
    intro m
    rcases ih (min m (f a)) with h | ⟨n, hn, h⟩
    · rcases min_choice m (f a) with hm | hm
      · exact Or.inl (by rw [List.foldl_cons, h, hm])
      · exact Or.inr ⟨a, List.mem_cons_self a l, by rw [List.foldl_cons, h, hm]⟩
    · exact Or.inr ⟨n, List.mem_cons_of_mem a hn, by rw [List.foldl_cons, h]⟩

theorem foldl_max_ge {α : Type} (f : α → Int) :
    ∀ (l : List α) (m : Int),
      m ≤ l.foldl (fun m n => max m (f n)) m ∧
        ∀ n ∈ l, f n ≤ l.foldl (fun m n => max m (f n)) m := by
  intro l
  induction l with
  | nil => intro m; exact ⟨le_refl m, by simp⟩
  | cons a l ih =>
    intro m
    obtain ⟨h1, h2⟩ := ih (max m (f a))
    refine ⟨le_trans (le_max_left _ _) h1, ?_⟩
    intro n hn
    rcases List.mem_cons.mp hn with rfl | hn
    · exact le_trans (le_max_right _ _) h1
    · exact h2 n hn

theorem foldl_max_attain {α : Type} (f : α → Int) :
    ∀ (l : List α) (m : Int),
      l.foldl (fun m n => max m (f n)) m = m ∨
        ∃ n ∈ l, l.foldl (fun m n => max m (f n)) m = f n := by
  intro l
  induction l with
  | nil => intro m; exact Or.inl rfl
  | cons a l ih =>
    intro m
    rcases ih (max m (f a)) with h | ⟨n, hn, h⟩
    · rcases max_choice m (f a) with hm | hm
      · exact Or.inl (by rw [List.foldl_cons, h, hm])
      · exact Or.inr ⟨a, List.mem_cons_self a l, by rw [List.foldl_cons, h, hm]⟩
    · exact Or.inr ⟨n, List.mem_cons_of_mem a hn, by rw [List.foldl_cons, h]⟩

/-! ## A normal form for one BFS step -/


theorem mem_newCells {img : Img} {c : Coord} {V : Finset Coord} {n : Coord} :
    n ∈ newCells img c V ↔ Adj c n ∧ isValid img n ∧ n ∉ V ∧ isFg img n := by
  simp [newCells, Adj, List.mem_filter]

theorem newCells_nodup (img : Img) (c : Coord) (V : Finset Coord) :
    (newCells img c V).Nodup :=
  (nbrList_nodup c).filter _

theorem visitNbrs_eq (img : Img) (c : Coord) :
    ∀ (ds : List Coord) (s : BfsState),
      (ds.map (fun d => ((c.1 + d.1, c.2 + d.2) : Coord))).Nodup →
      visitNbrs img c ds s =
        { visited := s.visited ∪
            ((ds.map (fun d => ((c.1 + d.1, c.2 + d.2) : Coord))).filter
              (fun n => decide (isValid img n ∧ n ∉ s.visited ∧ isFg img n))).toFinset
          queue := s.queue ++
            (ds.map (fun d => ((c.1 + d.1, c.2 + d.2) : Coord))).filter
              (fun n => decide (isValid img n ∧ n ∉ s.visited ∧ isFg img n))
          xlo := ((ds.map (fun d => ((c.1 + d.1, c.2 + d.2) : Coord))).filter
              (fun n => decide (isValid img n ∧ n ∉ s.visited ∧ isFg img n))).foldl
              (fun m n => min m n.1) s.xlo
          xhi := ((ds.map (fun d => ((c.1 + d.1, c.2 + d.2) : Coord))).filter
              (fun n => decide (isValid img n ∧ n ∉ s.visited ∧ isFg img n))).foldl
              (fun m n => max m n.1) s.xhi
          ylo := ((ds.map (fun d => ((c.1 + d.1, c.2 + d.2) : Coord))).filter
              (fun n => decide (isValid img n ∧ n ∉ s.visited ∧ isFg img n))).foldl
              (fun m n => min m n.2) s.ylo
          yhi := ((ds.map (fun d => ((c.1 + d.1, c.2 + d.2) : Coord))).filter
              (fun n => decide (isValid img n ∧ n ∉ s.visited ∧ isFg img n))).foldl
              (fun m n => max m n.2) s.yhi } := by
  intro ds
  induction ds with
  | nil =>
    intro s _
    simp [visitNbrs]
  | cons d ds ih =>
    intro s hnd
    simp only [List.map_cons, List.nodup_cons, List.mem_map] at hnd
    obtain ⟨hhead, htail⟩ := hnd
    by_cases hcond : isValid img ((c.1 + d.1, c.2 + d.2) : Coord) ∧
        ((c.1 + d.1, c.2 + d.2) : Coord) ∉ s.visited ∧
        isFg img ((c.1 + d.1, c.2 + d.2) : Coord)
    · have hstep : visitNbrs img c (d :: ds) s =
          visitNbrs img c ds
            { visited := insert ((c.1 + d.1, c.2 + d.2) : Coord) s.visited
              queue := s.queue ++ [((c.1 + d.1, c.2 + d.2) : Coord)]
              xlo := min s.xlo (c.1 + d.1)
              xhi := max s.xhi (c.1 + d.1)
              ylo := min s.ylo (c.2 + d.2)
              yhi := max s.yhi (c.2 + d.2) } := by
        simp only [visitNbrs, List.foldl_cons, if_pos hcond]
      rw [hstep, ih _ htail]
      have hfilt : ∀ m ∈ ds.map (fun d => ((c.1 + d.1, c.2 + d.2) : Coord)),
          (decide (isValid img m ∧
              m ∉ insert ((c.1 + d.1, c.2 + d.2) : Coord) s.visited ∧ isFg img m)) =
            (decide (isValid img m ∧ m ∉ s.visited ∧ isFg img m)) := by
        intro m hm
        have hmn : m ≠ ((c.1 + d.1, c.2 + d.2) : Coord) := by
          rintro rfl
          rcases List.mem_map.mp hm with ⟨e, he, hme⟩
          exact hhead ⟨e, he, hme⟩
        simp only [Finset.mem_insert, hmn, false_or, decide_eq_decide]
      dsimp only
      rw [List.filter_congr hfilt, List.map_cons,
        List.filter_cons_of_pos (by simpa using hcond), List.toFinset_cons,
        List.foldl_cons, List.foldl_cons, List.foldl_cons, List.foldl_cons]
      congr 1
      · rw [Finset.insert_union, Finset.union_insert]
      · rw [List.append_assoc]; rfl
    · have hstep : visitNbrs img c (d :: ds) s = visitNbrs img c ds s := by
        simp only [visitNbrs, List.foldl_cons, if_neg hcond]
      rw [hstep, ih _ htail]
      rw [List.map_cons, List.filter_cons_of_neg (by simpa using hcond)]

/-- One-step unfolding of the BFS loop in terms of `newCells`. -/
theorem bfsRun_cons (img : Img) (fuel : Nat) (s : BfsState) (c : Coord)
    (rest : List Coord) (hq : s.queue = c :: rest) :
    bfsRun img (fuel + 1) s =
      bfsRun img fuel
        { visited := s.visited ∪ (newCells img c s.visited).toFinset
          queue := rest ++ newCells img c s.visited
          xlo := (newCells img c s.visited).foldl (fun m n => min m n.1) s.xlo
          xhi := (newCells img c s.visited).foldl (fun m n => max m n.1) s.xhi
          ylo := (newCells img c s.visited).foldl (fun m n => min m n.2) s.ylo
          yhi := (newCells img c s.visited).foldl (fun m n => max m n.2) s.yhi } := by
  have hmap : (deltas.map (fun d => ((c.1 + d.1, c.2 + d.2) : Coord))).Nodup := by
    have := nbrList_nodup c
    simpa [nbrList] using this
  show (match s.queue with
    | [] => s
    | c :: rest => bfsRun img fuel (visitNbrs img c deltas { s with queue := rest })) = _
  rw [hq]
  show bfsRun img fuel (visitNbrs img c deltas { s with queue := rest }) = _
  rw [visitNbrs_eq img c deltas _ hmap]
  rfl



theorem bfsRun_cons_step (img : Img) (fuel : Nat) (s : BfsState) (c : Coord)
    (rest : List Coord) (hq : s.queue = c :: rest) :
    bfsRun img (fuel + 1) s = bfsRun img fuel (stepState img c rest s) :=
  bfsRun_cons img fuel s c rest hq

theorem bfsRun_nil (img : Img) (fuel : Nat) (s : BfsState) (hq : s.queue = []) :
    bfsRun img fuel s = s := by
  cases fuel with
  | zero => rfl
  | succ fuel =>
    show (match s.queue with
      | [] => s
      | c :: rest => bfsRun img fuel (visitNbrs img c deltas { s with queue := rest })) = s
    rw [hq]

theorem step_of_mem_newCells {img : Img} {c n : Coord} {V : Finset Coord}
    (h : n ∈ newCells img c V) : Step img c n := by
  rcases mem_newCells.mp h with ⟨hadj, hval, _, hfg⟩
  exact ⟨⟨hval, hfg⟩, hadj⟩

theorem bMeasure_step (img : Img) (s : BfsState) (c : Coord) (rest : List Coord)
    (hq : s.queue = c :: rest) :
    bMeasure img (stepState img c rest s) + 1 = bMeasure img s := by
  have hsub : (newCells img c s.visited).toFinset ⊆ validCells img \ s.visited := by
    intro n hn
    rcases mem_newCells.mp (List.mem_toFinset.mp hn) with ⟨_, hval, hnv, _⟩
    exact Finset.mem_sdiff.mpr ⟨mem_validCells.mpr hval, hnv⟩
  have hdiff : validCells img \ (stepState img c rest s).visited =
      (validCells img \ s.visited) \ (newCells img c s.visited).toFinset := by
    show validCells img \ (s.visited ∪ _) = _
    ext a
    simp only [Finset.mem_sdiff, Finset.mem_union]
    tauto
  have hcard : (validCells img \ (stepState img c rest s).visited).card =
      (validCells img \ s.visited).card - (newCells img c s.visited).length := by
    rw [hdiff, Finset.card_sdiff hsub,
      List.toFinset_card_of_nodup (newCells_nodup img c s.visited)]
  have hle : (newCells img c s.visited).length ≤ (validCells img \ s.visited).card := by
    rw [← List.toFinset_card_of_nodup (newCells_nodup img c s.visited)]
    exact Finset.card_le_card hsub
  have hql : (stepState img c rest s).queue.length =
      rest.length + (newCells img c s.visited).length := by
    show (rest ++ newCells img c s.visited).length = _
    rw [List.length_append]
  have hq' : s.queue.length = rest.length + 1 := by rw [hq]; rfl
  unfold bMeasure
  rw [hcard, hql, hq']
  omega


theorem bfsInv_step (img : Img) (V0 : Finset Coord) (c0 : Coord) (s : BfsState)
    (c : Coord) (rest : List Coord) (hq : s.queue = c :: rest)
    (h : BfsInv img V0 c0 s) : BfsInv img V0 c0 (stepState img c rest s) := by
  have hc : c ∈ s.visited ∧ c ∉ V0 := h.qmem c (by rw [hq]; exact List.mem_cons_self c rest)
  have hcConn : Conn img c0 c := h.conn c hc.1 hc.2
  have hnews : ∀ n ∈ newCells img c s.visited, n ∈ (stepState img c rest s).visited := by
    intro n hn
    exact Finset.mem_union_right _ (List.mem_toFinset.mpr hn)
  have holdv : ∀ a ∈ s.visited, a ∈ (stepState img c rest s).visited :=
    fun a ha => Finset.mem_union_left _ ha
  have hnewsNot : ∀ n ∈ newCells img c s.visited, n ∉ V0 := by
    intro n hn hnV0
    rcases mem_newCells.mp hn with ⟨_, _, hnv, _⟩
    exact hnv (h.subset hnV0)
  have hmem : ∀ a, a ∈ (stepState img c rest s).visited ↔
      a ∈ s.visited ∨ a ∈ newCells img c s.visited := by
    intro a
    show a ∈ s.visited ∪ _ ↔ _
    rw [Finset.mem_union, List.mem_toFinset]
  refine ⟨?_, ?_, h.startNot, ?_, ?_, ?_, ?_, ?_, ?_, ?_, ?_⟩
  · exact fun a ha => holdv a (h.subset ha)
  · exact holdv c0 h.start
  · intro a ha haV0
    rcases (hmem a).mp ha with ha | ha
    · exact h.conn a ha haV0
    · exact conn_tail hcConn (step_of_mem_newCells ha)
  · intro a ha
    rcases List.mem_append.mp ha with ha | ha
    · have := h.qmem a (by rw [hq]; exact List.mem_cons_of_mem c ha)
      exact ⟨holdv a this.1, this.2⟩
    · exact ⟨hnews a ha, hnewsNot a ha⟩
  · intro a ha haV0 n hn
    rcases (hmem a).mp ha with ha | ha
    · rcases h.frontier a ha haV0 n hn with hv | hqa
      · exact Or.inl (holdv n hv)
      · rw [hq] at hqa
        rcases List.mem_cons.mp hqa with rfl | hqa
        · by_cases hnv : n ∈ s.visited
          · exact Or.inl (holdv n hnv)
          · refine Or.inl (hnews n (mem_newCells.mpr ⟨hn.2, hn.1.1, hnv, hn.1.2⟩))
        · exact Or.inr (List.mem_append.mpr (Or.inl hqa))
    · exact Or.inr (List.mem_append.mpr (Or.inr ha))
  · intro a ha haV0
    have h1 := foldl_min_le (fun n : Coord => n.1) (newCells img c s.visited) s.xlo
    have h2 := foldl_max_ge (fun n : Coord => n.1) (newCells img c s.visited) s.xhi
    have h3 := foldl_min_le (fun n : Coord => n.2) (newCells img c s.visited) s.ylo
    have h4 := foldl_max_ge (fun n : Coord => n.2) (newCells img c s.visited) s.yhi
    rcases (hmem a).mp ha with ha | ha
    · have hb := h.blo a ha haV0
      exact ⟨le_trans h1.1 hb.1, le_trans hb.2.1 h2.1,
        le_trans h3.1 hb.2.2.1, le_trans hb.2.2.2 h4.1⟩
    · exact ⟨h1.2 a ha, h2.2 a ha, h3.2 a ha, h4.2 a ha⟩
  · rcases foldl_min_attain (fun n : Coord => n.1) (newCells img c s.visited) s.xlo with
      hat | ⟨n, hn, hat⟩
    · obtain ⟨a, ha, haV0, hax⟩ := h.xlo_mem
      exact ⟨a, holdv a ha, haV0, by rw [hax]; exact hat.symm⟩
    · exact ⟨n, hnews n hn, hnewsNot n hn, hat.symm⟩
  · rcases foldl_max_attain (fun n : Coord => n.1) (newCells img c s.visited) s.xhi with
      hat | ⟨n, hn, hat⟩
    · obtain ⟨a, ha, haV0, hax⟩ := h.xhi_mem
      exact ⟨a, holdv a ha, haV0, by rw [hax]; exact hat.symm⟩
    · exact ⟨n, hnews n hn, hnewsNot n hn, hat.symm⟩
  · rcases foldl_min_attain (fun n : Coord => n.2) (newCells img c s.visited) s.ylo with
      hat | ⟨n, hn, hat⟩
    · obtain ⟨a, ha, haV0, hax⟩ := h.ylo_mem
      exact ⟨a, holdv a ha, haV0, by rw [hax]; exact hat.symm⟩
    · exact ⟨n, hnews n hn, hnewsNot n hn, hat.symm⟩
  · rcases foldl_max_attain (fun n : Coord => n.2) (newCells img c s.visited) s.yhi with
      hat | ⟨n, hn, hat⟩
    · obtain ⟨a, ha, haV0, hax⟩ := h.yhi_mem
      exact ⟨a, holdv a ha, haV0, by rw [hax]; exact hat.symm⟩
    · exact ⟨n, hnews n hn, hnewsNot n hn, hat.symm⟩

theorem bfsRun_inv (img : Img) (V0 : Finset Coord) (c0 : Coord) :
    ∀ (fuel : Nat) (s : BfsState), bMeasure img s ≤ fuel → BfsInv img V0 c0 s →
      BfsInv img V0 c0 (bfsRun img fuel s) ∧ (bfsRun img fuel s).queue = [] := by
  intro fuel
  induction fuel with
  | zero =>
    intro s hm hinv
    have hq : s.queue = [] := by
      have : s.queue.length = 0 := by
        have := hm
        unfold bMeasure at this
        omega
      exact List.eq_nil_of_length_eq_zero this
    rw [bfsRun_nil img 0 s hq]
    exact ⟨hinv, hq⟩
  | succ fuel ih =>
    intro s hm hinv
    cases hq : s.queue with
    | nil =>
      rw [bfsRun_nil img (fuel + 1) s hq]
      exact ⟨hinv, hq⟩
    | cons c rest =>
      rw [bfsRun_cons_step img fuel s c rest hq]
      have hm' : bMeasure img (stepState img c rest s) ≤ fuel := by
        have := bMeasure_step img s c rest hq
        omega
      exact ih (stepState img c rest s) hm' (bfsInv_step img V0 c0 s c rest hq hinv)

theorem bfsInv_init (img : Img) (V0 : Finset Coord) (c : Coord)
    (hc : c ∉ V0) (hfg : FgV img c) :
    BfsInv img V0 c
      { visited := insert c V0, queue := [c]
        xlo := c.1, xhi := c.1, ylo := c.2, yhi := c.2 } := by
  have hmem : ∀ a, a ∈ insert c V0 → a ∉ V0 → a = c := by
    intro a ha hnot
    rcases Finset.mem_insert.mp ha with rfl | ha
    · rfl
    · exact absurd ha hnot
  refine ⟨fun a ha => Finset.mem_insert_of_mem ha, Finset.mem_insert_self c V0, hc,
    ?_, ?_, ?_, ?_, ⟨c, Finset.mem_insert_self c V0, hc, rfl⟩,
    ⟨c, Finset.mem_insert_self c V0, hc, rfl⟩,
    ⟨c, Finset.mem_insert_self c V0, hc, rfl⟩,
    ⟨c, Finset.mem_insert_self c V0, hc, rfl⟩⟩
  · intro a ha hnot
    rw [hmem a ha hnot]
    exact conn_refl hfg
  · intro a ha
    rcases List.mem_singleton.mp ha with rfl
    exact ⟨Finset.mem_insert_self a V0, hc⟩
  · intro a ha hnot n _
    exact Or.inr (by rw [hmem a ha hnot]; exact List.mem_singleton.mpr rfl)
  · intro a ha hnot
    rw [hmem a ha hnot]
    exact ⟨le_refl _, le_refl _, le_refl _, le_refl _⟩

theorem bfs_final_mem (img : Img) (V0 : Finset Coord) (c0 : Coord) (s : BfsState)
    (hinv : BfsInv img V0 c0 s) (hq : s.queue = []) (hcl : ClosedSet img V0) :
    ∀ a, a ∈ s.visited ↔ a ∈ V0 ∨ Conn img c0 a := by
  intro a
  constructor
  · intro ha
    by_cases haV0 : a ∈ V0
    · exact Or.inl haV0
    · exact Or.inr (hinv.conn a ha haV0)
  · rintro (ha | ⟨hfg, hpath⟩)
    · exact hinv.subset ha
    · induction hpath with
      | refl => exact hinv.start
      | @tail b n hpath hstep ih =>
        have hb : b ∈ s.visited := ih
        by_cases hbV0 : b ∈ V0
        · exact hinv.subset (hcl b hbV0 n hstep)
        · rcases hinv.frontier b hb hbV0 n hstep with hv | hqb
          · exact hv
          · rw [hq] at hqb
            exact absurd hqb (List.not_mem_nil b)

/-- Summary of one full BFS triggered at an unvisited foreground pixel
`c` with visited set `V0` closed under flood-fill steps: the fuelled run
terminates, visits exactly `V0` plus the connected group of `c`, and its
final bounds are the tight bounding box of that group. -/
theorem bfs_summary (img : Img) (V0 : Finset Coord) (c : Coord)
    (hc : c ∉ V0) (hfg : FgV img c) (hcl : ClosedSet img V0) :
    (∀ a, a ∈ (bfsRun img (img.width * img.height + 1)
        { visited := insert c V0, queue := [c]
          xlo := c.1, xhi := c.1, ylo := c.2, yhi := c.2 }).visited ↔
      a ∈ V0 ∨ Conn img c a) ∧
    (∀ b, Conn img c b →
      (bfsRun img (img.width * img.height + 1)
        { visited := insert c V0, queue := [c]
          xlo := c.1, xhi := c.1, ylo := c.2, yhi := c.2 }).xlo ≤ b.1 ∧
      b.1 ≤ (bfsRun img (img.width * img.height + 1)
        { visited := insert c V0, queue := [c]
          xlo := c.1, xhi := c.1, ylo := c.2, yhi := c.2 }).xhi ∧
      (bfsRun img (img.width * img.height + 1)
        { visited := insert c V0, queue := [c]
          xlo := c.1, xhi := c.1, ylo := c.2, yhi := c.2 }).ylo ≤ b.2 ∧
      b.2 ≤ (bfsRun img (img.width * img.height + 1)
        { visited := insert c V0, queue := [c]
          xlo := c.1, xhi := c.1, ylo := c.2, yhi := c.2 }).yhi) ∧
    ((∃ b, Conn img c b ∧ b.1 = (bfsRun img (img.width * img.height + 1)
        { visited := insert c V0, queue := [c]
          xlo := c.1, xhi := c.1, ylo := c.2, yhi := c.2 }).xlo) ∧
     (∃ b, Conn img c b ∧ b.1 = (bfsRun img (img.width * img.height + 1)
        { visited := insert c V0, queue := [c]
          xlo := c.1, xhi := c.1, ylo := c.2, yhi := c.2 }).xhi) ∧
     (∃ b, Conn img c b ∧ b.2 = (bfsRun img (img.width * img.height + 1)
        { visited := insert c V0, queue := [c]
          xlo := c.1, xhi := c.1, ylo := c.2, yhi := c.2 }).ylo) ∧
     (∃ b, Conn img c b ∧ b.2 = (bfsRun img (img.width * img.height + 1)
        { visited := insert c V0, queue := [c]
          xlo := c.1, xhi := c.1, ylo := c.2, yhi := c.2 }).yhi)) := by
  set s0 : BfsState :=
    { visited := insert c V0, queue := [c]
      xlo := c.1, xhi := c.1, ylo := c.2, yhi := c.2 } with hs0
  have hm : bMeasure img s0 ≤ img.width * img.height + 1 := by
    have h1 : (validCells img \ s0.visited).card ≤ (validCells img).card :=
      Finset.card_le_card (Finset.sdiff_subset)
    have h2 := card_validCells img
    show (validCells img \ s0.visited).card + 1 ≤ _
    omega
  obtain ⟨hinv, hq⟩ := bfsRun_inv img V0 c (img.width * img.height + 1) s0 hm
    (bfsInv_init img V0 c hc hfg)
  have hiff := bfs_final_mem img V0 c _ hinv hq hcl
  have hconnNot : ∀ b, Conn img c b → b ∉ V0 :=
    fun b hb => conn_notin_closed hcl hc hb
  have hconnMem : ∀ b, Conn img c b →
      b ∈ (bfsRun img (img.width * img.height + 1) s0).visited :=
    fun b hb => (hiff b).mpr (Or.inr hb)
  refine ⟨hiff, ?_, ?_, ?_, ?_, ?_⟩
  · intro b hb
    exact hinv.blo b (hconnMem b hb) (hconnNot b hb)
  · obtain ⟨a, ha, haV0, hax⟩ := hinv.xlo_mem
    exact ⟨a, hinv.conn a ha haV0, hax⟩
  · obtain ⟨a, ha, haV0, hax⟩ := hinv.xhi_mem
    exact ⟨a, hinv.conn a ha haV0, hax⟩
  · obtain ⟨a, ha, haV0, hax⟩ := hinv.ylo_mem
    exact ⟨a, hinv.conn a ha haV0, hax⟩
  · obtain ⟨a, ha, haV0, hax⟩ := hinv.yhi_mem
    exact ⟨a, hinv.conn a ha haV0, hax⟩

/-! ## The row-major scan -/



theorem flatMap_grid (w : Nat) : ∀ h : Nat,
    (List.range h).flatMap
        (fun (y : Nat) => (List.range w).map
          (fun (x : Nat) => (((x : Int), (y : Int)) : Coord))) =
      (List.range (w * h)).map (coordOfIdx w) := by
  intro h
  by_cases hw : w = 0
  · subst hw
    simp
  · have hw0 : 0 < w := Nat.pos_of_ne_zero hw
    induction h with
    | zero => simp
    | succ h ih =>
      have hsecond : (List.range w).map (fun (x : Nat) => (((x : Int), (h : Int)) : Coord)) =
          ((List.range w).map (fun x => w * h + x)).map (coordOfIdx w) := by
        rw [List.map_map]
        refine List.map_congr_left ?_
        intro x hx
        have hxw : x < w := List.mem_range.mp hx
        show ((x : Int), (h : Int)) = coordOfIdx w (w * h + x)
        unfold coordOfIdx
        rw [Nat.mul_add_mod, Nat.mod_eq_of_lt hxw, Nat.mul_add_div hw0,
          Nat.div_eq_of_lt hxw, Nat.add_zero]
      rw [List.range_succ, List.flatMap_append, ih, List.flatMap_singleton,
        Nat.mul_succ, List.range_add, List.map_append, hsecond]

theorem scanCoords_eq (img : Img) :
    scanCoords img = (List.range (img.width * img.height)).map (coordOfIdx img.width) :=
  flatMap_grid img.width img.height

theorem coordOfIdx_isValid {img : Img} {i : Nat} (hi : i < img.width * img.height) :
    isValid img (coordOfIdx img.width i) := by
  have hw0 : 0 < img.width := by
    rcases Nat.eq_zero_or_pos img.width with h | h
    · rw [h] at hi; omega
    · exact h
  have h1 : (coordOfIdx img.width i).1 = ((i % img.width : Nat) : Int) := rfl
  have h2 : (coordOfIdx img.width i).2 = ((i / img.width : Nat) : Int) := rfl
  unfold isValid
  refine ⟨?_, ?_, ?_, ?_⟩
  · rw [h1]; exact Int.ofNat_nonneg _
  · rw [h1]; exact_mod_cast Nat.mod_lt i hw0
  · rw [h2]; exact Int.ofNat_nonneg _
  · rw [h2]
    exact_mod_cast (Nat.div_lt_iff_lt_mul hw0).mpr (by rw [Nat.mul_comm] at hi; exact hi)

theorem scanIdx_coordOfIdx (img : Img) (i : Nat) :
    scanIdx img (coordOfIdx img.width i) = (i : Int) := by
  unfold scanIdx coordOfIdx
  have h : (i / img.width) * img.width + i % img.width = i := by
    rw [Nat.mul_comm]
    exact Nat.div_add_mod i img.width
  push_cast
  exact_mod_cast congrArg (fun n : Nat => (n : Int)) h

theorem scanIdx_nonneg {img : Img} {b : Coord} (hb : isValid img b) :
    0 ≤ scanIdx img b := by
  obtain ⟨h1, _, h3, _⟩ := hb
  have : 0 ≤ b.2 * (img.width : Int) := mul_nonneg h3 (Int.ofNat_nonneg _)
  unfold scanIdx
  omega

theorem scanIdx_lt {img : Img} {b : Coord} (hb : isValid img b) :
    scanIdx img b < ((img.width * img.height : Nat) : Int) := by
  obtain ⟨h1, h2, h3, h4⟩ := hb
  have hstep : (b.2 + 1) * (img.width : Int) ≤ (img.height : Int) * (img.width : Int) :=
    Int.mul_le_mul_of_nonneg_right (by omega) (Int.ofNat_nonneg _)
  have hexp : (b.2 + 1) * (img.width : Int) = b.2 * (img.width : Int) + img.width := by ring
  unfold scanIdx
  push_cast
  rw [hexp] at hstep
  have : (img.width : Int) * (img.height : Int) = (img.height : Int) * (img.width : Int) := by
    ring
  omega

theorem scanIdx_inj {img : Img} {b b' : Coord} (hb : isValid img b)
    (hb' : isValid img b') (h : scanIdx img b = scanIdx img b') : b = b' := by
  obtain ⟨h1, h2, h3, h4⟩ := hb
  obtain ⟨h1', h2', h3', h4'⟩ := hb'
  unfold scanIdx at h
  have hy : b.2 = b'.2 := by
    rcases lt_trichotomy b.2 b'.2 with hlt | heq | hgt
    · exfalso
      have hstep : (b.2 + 1) * (img.width : Int) ≤ b'.2 * (img.width : Int) :=
        Int.mul_le_mul_of_nonneg_right (by omega) (Int.ofNat_nonneg _)
      have hexp : (b.2 + 1) * (img.width : Int) = b.2 * (img.width : Int) + img.width := by
        ring
      omega
    · exact heq
    · exfalso
      have hstep : (b'.2 + 1) * (img.width : Int) ≤ b.2 * (img.width : Int) :=
        Int.mul_le_mul_of_nonneg_right (by omega) (Int.ofNat_nonneg _)
      have hexp : (b'.2 + 1) * (img.width : Int) = b'.2 * (img.width : Int) + img.width := by
        ring
      omega
  have hx : b.1 = b'.1 := by
    rw [hy] at h
    omega
  exact Prod.ext hx hy



theorem ScanInv.closed {img : Img} {n : Nat} {vis : Finset Coord}
    {regions : List Region} {roots : List Coord}
    (h : ScanInv img n vis regions roots) : ClosedSet img vis := by
  intro a ha b hstep
  rcases (h.mem_iff a).mp ha with ⟨c, hc, hconn⟩
  exact (h.mem_iff b).mpr ⟨c, hc, conn_tail hconn hstep⟩

theorem scanGo (img : Img) :
    ∀ (k n : Nat) (vis : Finset Coord) (regions : List Region) (roots : List Coord),
      n + k = img.width * img.height →
      ScanInv img n vis regions roots →
      ∃ roots',
        ScanInv img (n + k)
          (((List.range' n k).map (coordOfIdx img.width)).foldl
            (scanStep img) (vis, regions)).1
          (((List.range' n k).map (coordOfIdx img.width)).foldl
            (scanStep img) (vis, regions)).2
          roots' := by
  intro k
  induction k with
  | zero =>
    intro n vis regions roots hnk hinv
    exact ⟨roots, by simpa using hinv⟩
  | succ k ih =>
    intro n vis regions roots hnk hinv
    have hn_lt : n < img.width * img.height := by omega
    have hcval : isValid img (coordOfIdx img.width n) := coordOfIdx_isValid hn_lt
    have hcidx : scanIdx img (coordOfIdx img.width n) = (n : Int) :=
      scanIdx_coordOfIdx img n
    rw [List.range'_succ, List.map_cons, List.foldl_cons]
    by_cases htr : coordOfIdx img.width n ∉ vis ∧ isFg img (coordOfIdx img.width n)
    · -- a new BFS is triggered at this cell
      have hfgc : FgV img (coordOfIdx img.width n) := ⟨hcval, htr.2⟩
      obtain ⟨hiff, hbnd, hxlo, hxhi, hylo, hyhi⟩ :=
        bfs_summary img vis (coordOfIdx img.width n) htr.1 hfgc hinv.closed
      set s : BfsState := bfsRun img (img.width * img.height + 1)
        { visited := insert (coordOfIdx img.width n) vis, queue := [coordOfIdx img.width n]
          xlo := (coordOfIdx img.width n).1, xhi := (coordOfIdx img.width n).1
          ylo := (coordOfIdx img.width n).2, yhi := (coordOfIdx img.width n).2 } with hs
      have hstep_eq : scanStep img (vis, regions) (coordOfIdx img.width n) =
          (s.visited, regions ++ [⟨s.xlo, s.ylo, s.xhi + 1, s.yhi + 1⟩]) := by
        unfold scanStep
        rw [if_pos htr]
      rw [hstep_eq]
      have hinv' : ScanInv img (n + 1) s.visited
          (regions ++ [⟨s.xlo, s.ylo, s.xhi + 1, s.yhi + 1⟩])
          (roots ++ [coordOfIdx img.width n]) := by
        refine ⟨?_, ?_, ?_, ?_, ?_, ?_, ?_⟩
        · intro a
          rw [hiff a]
          constructor
          · rintro (ha | ha)
            · rcases (hinv.mem_iff a).mp ha with ⟨r, hr, hconn⟩
              exact ⟨r, List.mem_append.mpr (Or.inl hr), hconn⟩
            · exact ⟨coordOfIdx img.width n,
                List.mem_append.mpr (Or.inr (List.mem_singleton.mpr rfl)), ha⟩
          · rintro ⟨r, hr, hconn⟩
            rcases List.mem_append.mp hr with hr | hr
            · exact Or.inl ((hinv.mem_iff a).mpr ⟨r, hr, hconn⟩)
            · rcases List.mem_singleton.mp hr with rfl
              exact Or.inr hconn
        · refine List.rel_append hinv.boxes ?_
          refine List.Forall₂.cons ?_ List.Forall₂.nil
          refine ⟨?_, ?_, ?_, ?_, ?_⟩
          · intro b hb
            have hB := hbnd b hb
            refine ⟨hB.1, ?_, hB.2.2.1, ?_⟩
            · show b.1 < s.xhi + 1
              omega
            · show b.2 < s.yhi + 1
              omega
          · exact hxlo
          · obtain ⟨b, hb, hbx⟩ := hxhi
            refine ⟨b, hb, ?_⟩
            show b.1 = s.xhi + 1 - 1
            omega
          · exact hylo
          · obtain ⟨b, hb, hbx⟩ := hyhi
            refine ⟨b, hb, ?_⟩
            show b.2 = s.yhi + 1 - 1
            omega
        · intro r hr
          rcases List.mem_append.mp hr with hr | hr
          · exact hinv.rootsFg r hr
          · rcases List.mem_singleton.mp hr with rfl
            exact hfgc
        · intro r hr
          rcases List.mem_append.mp hr with hr | hr
          · have := hinv.scanlt r hr
            push_cast
            push_cast at this
            omega
          · rcases List.mem_singleton.mp hr with rfl
            rw [hcidx]
            push_cast
            omega
        · rw [List.pairwise_append]
          refine ⟨hinv.sorted, List.pairwise_singleton _ _, ?_⟩
          intro a ha b hb
          rcases List.mem_singleton.mp hb with rfl
          rw [hcidx]
          exact hinv.scanlt a ha
        · intro r hr
          rcases List.mem_append.mp hr with hr | hr
          · exact hinv.minimal r hr
          · rcases List.mem_singleton.mp hr with rfl
            intro b hconn
            by_contra hlt
            push_neg at hlt
            rw [hcidx] at hlt
            have hbfg : FgV img b := conn_fgV hconn
            have hbvis : b ∈ vis := hinv.covered b hbfg (by omega)
            have : coordOfIdx img.width n ∈ vis :=
              hinv.closed.mem_of_conn hbvis (conn_symm hconn)
            exact htr.1 this
        · intro b hbfg hblt
          by_cases hbn : scanIdx img b < (n : Int)
          · exact (hiff b).mpr (Or.inl (hinv.covered b hbfg hbn))
          · have hbeq : scanIdx img b = (n : Int) := by
              push_cast at hblt
              omega
            have : b = coordOfIdx img.width n :=
              scanIdx_inj hbfg.1 hcval (by rw [hbeq, hcidx])
            rw [this]
            exact (hiff _).mpr (Or.inr (conn_refl hfgc))
      have hnk' : (n + 1) + k = img.width * img.height := by omega
      obtain ⟨roots', hres⟩ := ih (n + 1) s.visited
        (regions ++ [⟨s.xlo, s.ylo, s.xhi + 1, s.yhi + 1⟩])
        (roots ++ [coordOfIdx img.width n]) hnk' hinv'
      refine ⟨roots', ?_⟩
      have hidx : (n + 1) + k = n + (k + 1) := by omega
      rw [hidx] at hres
      exact hres
    · -- the cell is already visited or transparent: nothing happens
      have hstep_eq : scanStep img (vis, regions) (coordOfIdx img.width n) =
          (vis, regions) := by
        unfold scanStep
        rw [if_neg htr]
      rw [hstep_eq]
      have hinv' : ScanInv img (n + 1) vis regions roots := by
        refine ⟨hinv.mem_iff, hinv.boxes, hinv.rootsFg, ?_, hinv.sorted, hinv.minimal, ?_⟩
        · intro r hr
          have := hinv.scanlt r hr
          push_cast
          push_cast at this
          omega
        · intro b hbfg hblt
          by_cases hbn : scanIdx img b < (n : Int)
          · exact hinv.covered b hbfg hbn
          · have hbeq : scanIdx img b = (n : Int) := by
              push_cast at hblt
              omega
            have hbc : b = coordOfIdx img.width n :=
              scanIdx_inj hbfg.1 hcval (by rw [hbeq, hcidx])
            push_neg at htr
            rcases Decidable.em (coordOfIdx img.width n ∈ vis) with hcv | hcv
            · rw [hbc]; exact hcv
            · exact absurd (hbc ▸ hbfg.2) (htr hcv)
      have hnk' : (n + 1) + k = img.width * img.height := by omega
      obtain ⟨roots', hres⟩ := ih (n + 1) vis regions roots hnk' hinv'
      refine ⟨roots', ?_⟩
      have hidx : (n + 1) + k = n + (k + 1) := by omega
      rw [hidx] at hres
      exact hres

/-- Full characterization of `get_connected_regions`: there is a list of
root pixels, one per emitted region, such that each region is the tight
bounding box of its root's connected group, roots are the row-major-first
pixels of their groups and appear in strictly increasing scan order, and
every foreground pixel is connected to some root. -/
theorem scan_spec (img : Img) :
    ∃ roots : List Coord,
      List.Forall₂ (RegionSpec img) roots (get_connected_regions img) ∧
      (∀ c ∈ roots, FgV img c) ∧
      roots.Pairwise (fun a b => scanIdx img a < scanIdx img b) ∧
      (∀ c ∈ roots, ∀ b, Conn img c b → scanIdx img c ≤ scanIdx img b) ∧
      (∀ b, FgV img b → ∃ c ∈ roots, Conn img c b) := by
  have hinv0 : ScanInv img 0 ∅ [] [] := by
    refine ⟨?_, List.Forall₂.nil, ?_, ?_, List.Pairwise.nil, ?_, ?_⟩
    · intro a; simp
    · intro c hc; exact absurd hc (List.not_mem_nil c)
    · intro c hc; exact absurd hc (List.not_mem_nil c)
    · intro c hc; exact absurd hc (List.not_mem_nil c)
    · intro b hbfg hblt
      exact absurd hblt (not_lt.mpr (by exact_mod_cast scanIdx_nonneg hbfg.1))
  obtain ⟨roots, hres⟩ := scanGo img (img.width * img.height) 0 ∅ [] [] (by omega) hinv0
  have heq : get_connected_regions img =
      (((List.range' 0 (img.width * img.height)).map (coordOfIdx img.width)).foldl
        (scanStep img) (∅, [])).2 := by
    unfold get_connected_regions
    rw [scanCoords_eq, List.range_eq_range']
  rw [heq]
  refine ⟨roots, hres.boxes, hres.rootsFg, hres.sorted, hres.minimal, ?_⟩
  intro b hbfg
  have hlt : scanIdx img b < ((0 + img.width * img.height : Nat) : Int) := by
    have := scanIdx_lt hbfg.1
    push_cast
    push_cast at this
    omega
  exact (hres.mem_iff b).mp (hres.covered b hbfg hlt)

theorem forall2_mem_right {α β : Type} {R : α → β → Prop} :
    ∀ {l1 : List α} {l2 : List β}, List.Forall₂ R l1 l2 → ∀ b ∈ l2, ∃ a ∈ l1, R a b := by
  intro l1 l2 h
  induction h with
  | nil => intro b hb; exact absurd hb (List.not_mem_nil b)
  | cons hR _ ih =>
    intro b hb
    rcases List.mem_cons.mp hb with rfl | hb
    · exact ⟨_, List.mem_cons_self _ _, hR⟩
    · obtain ⟨a, ha, hab⟩ := ih b hb
      exact ⟨a, List.mem_cons_of_mem _ ha, hab⟩

/-- Roots of distinct regions are never connected to each other. -/
theorem roots_pairwise_not_conn {img : Img} {roots : List Coord}
    (hs : roots.Pairwise (fun a b => scanIdx img a < scanIdx img b))
    (hmin : ∀ c ∈ roots, ∀ b, Conn img c b → scanIdx img c ≤ scanIdx img b) :
    roots.Pairwise (fun a b => ¬ Conn img a b) := by
  refine hs.imp_of_mem ?_
  intro a b ha hb hlt hconn
  have := hmin b hb a (conn_symm hconn)
  omega

/-- C1: `get_connected_regions` returns exactly one Region per maximal
8-connected group of foreground pixels, each the tight bounding box of
its group with exclusive upper bounds, the groups partitioning the
foreground pixels exactly, in row-major discovery order of each group's
first-scanned pixel. -/
theorem C1_find_regions_correct (img : Img) :
    ∃ roots : List Coord,
      List.Forall₂ (RegionSpec img) roots (get_connected_regions img) ∧
      (∀ c ∈ roots, FgV img c ∧ ∀ b, Conn img c b → scanIdx img c ≤ scanIdx img b) ∧
      roots.Pairwise (fun a b => scanIdx img a < scanIdx img b) ∧
      (∀ b, FgV img b → ∃ c, c ∈ roots ∧ Conn img c b ∧
        ∀ c', c' ∈ roots → Conn img c' b → c' = c) ∧
      (∀ c ∈ roots, ∀ b, Conn img c b → FgV img b) := by
  obtain ⟨roots, hboxes, hfg, hsorted, hmin, hcover⟩ := scan_spec img
  refine ⟨roots, hboxes, fun c hc => ⟨hfg c hc, hmin c hc⟩, hsorted, ?_, ?_⟩
  · intro b hb
    obtain ⟨c, hc, hconn⟩ := hcover b hb
    refine ⟨c, hc, hconn, ?_⟩
    intro c' hc' hconn'
    have h1 : Conn img c' c := conn_trans hconn' (conn_symm hconn)
    have h2 : Conn img c c' := conn_symm h1
    have hle1 := hmin c hc c' h2
    have hle2 := hmin c' hc' c h1
    exact scanIdx_inj (hfg c' hc').1 (hfg c hc).1 (by omega)
  · intro c _ b hconn
    exact conn_fgV hconn

theorem regions_in_bounds (img : Img) :
    ∀ r ∈ get_connected_regions img,
      0 ≤ r.x0 ∧ r.x0 < r.x1 ∧ r.x1 ≤ (img.width : Int) ∧
      0 ≤ r.y0 ∧ r.y0 < r.y1 ∧ r.y1 ≤ (img.height : Int) := by
  intro r hr
  obtain ⟨roots, hboxes, hfg, _, _, _⟩ := scan_spec img
  obtain ⟨c, hc, hspec⟩ := forall2_mem_right hboxes r hr
  obtain ⟨hbnd, ⟨bx0, hbx0c, hbx0⟩, ⟨bx1, hbx1c, hbx1⟩, ⟨by0, hby0c, hby0⟩,
    ⟨by1, hby1c, hby1⟩⟩ := hspec
  have hcfg : FgV img c := hfg c hc
  have hself := hbnd c (conn_refl hcfg)
  have hvx0 : isValid img bx0 := (conn_fgV hbx0c).1
  have hvx1 : isValid img bx1 := (conn_fgV hbx1c).1
  have hvy0 : isValid img by0 := (conn_fgV hby0c).1
  have hvy1 : isValid img by1 := (conn_fgV hby1c).1
  obtain ⟨hx0a, hx0b, _, _⟩ := hvx0
  obtain ⟨hx1a, hx1b, _, _⟩ := hvx1
  obtain ⟨_, _, hy0a, hy0b⟩ := hvy0
  obtain ⟨_, _, hy1a, hy1b⟩ := hvy1
  refine ⟨by omega, ?_, by omega, by omega, ?_, by omega⟩
  · have := hself.1
    have := hself.2.1
    omega
  · have := hself.2.2.1
    have := hself.2.2.2
    omega

/-- C10: every region returned by `get_connected_regions` lies inside
the image: `0 ≤ x0 < x1 ≤ width` and `0 ≤ y0 < y1 ≤ height`, so every
subsequent crop reads only in-bounds pixels. -/
theorem C10_regions_in_bounds (img : Img) :
    ∀ r ∈ get_connected_regions img,
      0 ≤ r.x0 ∧ r.x0 < r.x1 ∧ r.x1 ≤ (img.width : Int) ∧
      0 ≤ r.y0 ∧ r.y0 < r.y1 ∧ r.y1 ≤ (img.height : Int) :=
  regions_in_bounds img





set_option maxRecDepth 10000 in
/-- C9 is false as stated: on `imgU` the scan returns the regions
`(0,0,5,5)` (the U shape) and `(2,1,3,2)` (the inner dot), and the pixel
position `(2,1)` lies inside both rectangles. -/
theorem C9_counterexample :
    get_connected_regions imgU = [⟨0, 0, 5, 5⟩, ⟨2, 1, 3, 2⟩] ∧
    inRect (2, 1) ⟨0, 0, 5, 5⟩ ∧ inRect (2, 1) ⟨2, 1, 3, 2⟩ := by
  decide

/-- C9 amended: the bounding boxes returned by `get_connected_regions`
may overlap, but the underlying pixel groups are pairwise disjoint: the
regions correspond one-to-one, in order, to roots whose connected groups
share no pixel. -/
theorem C9_amended_groups_disjoint (img : Img) :
    ∃ roots : List Coord,
      List.Forall₂ (RegionSpec img) roots (get_connected_regions img) ∧
      roots.Pairwise (fun a b => ∀ p, ¬ (Conn img a p ∧ Conn img b p)) := by
  obtain ⟨roots, hboxes, _, hsorted, hmin, _⟩ := scan_spec img
  refine ⟨roots, hboxes, ?_⟩
  refine (roots_pairwise_not_conn hsorted hmin).imp ?_
  rintro a b hnc p ⟨hap, hbp⟩
  exact hnc (conn_trans hap (conn_symm hbp))

theorem C10_regions_in_bounds_witness :
    (⟨2, 0, 3, 1⟩ : Region) ∈ get_connected_regions imgTwoDots ∧
    (0 ≤ (⟨2, 0, 3, 1⟩ : Region).x0 ∧
      (⟨2, 0, 3, 1⟩ : Region).x0 < (⟨2, 0, 3, 1⟩ : Region).x1 ∧
      (⟨2, 0, 3, 1⟩ : Region).x1 ≤ (imgTwoDots.width : Int) ∧
      0 ≤ (⟨2, 0, 3, 1⟩ : Region).y0 ∧
      (⟨2, 0, 3, 1⟩ : Region).y0 < (⟨2, 0, 3, 1⟩ : Region).y1 ∧
      (⟨2, 0, 3, 1⟩ : Region).y1 ≤ (imgTwoDots.height : Int)) :=
  ⟨by decide, C10_regions_in_bounds imgTwoDots ⟨2, 0, 3, 1⟩ (by decide)⟩

/-! ## Pipeline helper lemmas -/

theorem pyInt_eq_floor {q : ℚ} (h : 0 ≤ q) : pyInt q = ⌊q⌋ := by
  rw [Rat.floor_def]
  exact Int.tdiv_eq_ediv (Rat.num_nonneg.mpr h) (Int.ofNat_nonneg _)

theorem pyInt_nonneg {q : ℚ} (h : 0 ≤ q) : 0 ≤ pyInt q :=
  Int.tdiv_nonneg (Rat.num_nonneg.mpr h) (Int.ofNat_nonneg _)

theorem scaleFrame_eq_some {s : ℚ} (f : Img)
    (hw : 1 ≤ pyInt ((f.width : ℚ) * s)) (hh : 1 ≤ pyInt ((f.height : ℚ) * s)) :
    scaleFrame s f = some (resize f (pyInt ((f.width : ℚ) * s)).toNat
      (pyInt ((f.height : ℚ) * s)).toNat) := by
  unfold scaleFrame
  rw [if_neg]
  rw [not_or]
  exact ⟨not_lt.mpr hw, not_lt.mpr hh⟩

theorem scaleFrame_eq_none {s : ℚ} (f : Img)
    (h : pyInt ((f.width : ℚ) * s) < 1 ∨ pyInt ((f.height : ℚ) * s) < 1) :
    scaleFrame s f = none := by
  unfold scaleFrame
  rw [if_pos h]

theorem scaleAll_none {s : ℚ} {f : Img} :
    ∀ {frames : List Img}, f ∈ frames → scaleFrame s f = none →
      scaleAll s frames = none := by
  intro frames
  induction frames with
  | nil => intro hf; exact absurd hf (List.not_mem_nil f)
  | cons g gs ih =>
    intro hf hnone
    rcases List.mem_cons.mp hf with rfl | hf
    · unfold scaleAll
      rw [hnone]
    · unfold scaleAll
      cases hg : scaleFrame s g with
      | none => rfl
      | some g2 =>
        rw [ih hf hnone]

theorem scaleAll_length {s : ℚ} :
    ∀ {frames frames' : List Img}, scaleAll s frames = some frames' →
      frames'.length = frames.length := by
  intro frames
  induction frames with
  | nil =>
    intro frames' h
    cases h
    rfl
  | cons g gs ih =>
    intro frames' h
    unfold scaleAll at h
    cases hg : scaleFrame s g with
    | none => rw [hg] at h; cases h
    | some g2 =>
      rw [hg] at h
      cases hgs : scaleAll s gs with
      | none => rw [hgs] at h; cases h
      | some gs2 =>
        rw [hgs] at h
        cases h
        rw [List.length_cons, ih hgs, List.length_cons]

theorem scaleStage_one (frames : List Img) : scaleStage 1 frames = some frames := by
  unfold scaleStage
  rw [if_neg]
  simp

theorem scaleStage_length {s : ℚ} {frames frames' : List Img}
    (h : scaleStage s frames = some frames') : frames'.length = frames.length := by
  unfold scaleStage at h
  split at h
  · exact scaleAll_length h
  · cases h
    rfl

theorem sortStage_perm (b : Bool) (pairs : List (Region × Img)) :
    (sortStage b pairs).Perm pairs := by
  unfold sortStage
  split
  · exact List.perm_insertionSort keyLe pairs
  · exact List.Perm.refl pairs

theorem sortStage_length (b : Bool) (pairs : List (Region × Img)) :
    (sortStage b pairs).length = pairs.length :=
  (sortStage_perm b pairs).length_eq

theorem repStage_length (r : Int) (frames : List Img) :
    (repStage r frames).length = frames.length * r.toNat := by
  unfold repStage
  induction frames with
  | nil => simp
  | cons f fs ih =>
    rw [List.flatMap_cons, List.length_append, List.length_replicate, ih,
      List.length_cons, Nat.succ_mul]
    omega

theorem mem_repStage {r : Int} {frames : List Img} {f : Img}
    (h : f ∈ repStage r frames) : f ∈ frames := by
  rcases List.mem_flatMap.mp h with ⟨g, hg, hf⟩
  rw [List.eq_of_mem_replicate hf]
  exact hg

theorem le_foldl_max (g : Img → Nat) :
    ∀ (l : List Img) (a : Nat),
      a ≤ l.foldl (fun m f => max m (g f)) a ∧
        ∀ f ∈ l, g f ≤ l.foldl (fun m f => max m (g f)) a := by
  intro l
  induction l with
  | nil => intro a; exact ⟨le_refl a, by simp⟩
  | cons f fs ih =>
    intro a
    obtain ⟨h1, h2⟩ := ih (max a (g f))
    refine ⟨le_trans (le_max_left _ _) h1, ?_⟩
    intro f2 hf2
    rcases List.mem_cons.mp hf2 with rfl | hf2
    · exact le_trans (le_max_right _ _) h1
    · exact h2 f2 hf2

theorem le_maxW {frames : List Img} {f : Img} (h : f ∈ frames) :
    f.width ≤ maxW frames :=
  (le_foldl_max Img.width frames 0).2 f h

theorem le_maxH {frames : List Img} {f : Img} (h : f ∈ frames) :
    f.height ≤ maxH frames :=
  (le_foldl_max Img.height frames 0).2 f h

theorem paste_width (base fr : Img) (ox oy : Int) :
    (paste base fr ox oy).width = base.width := rfl

theorem paste_height (base fr : Img) (ox oy : Int) :
    (paste base fr ox oy).height = base.height := rfl

theorem pad_frame_width (f : Img) (tw th : Nat) :
    (pad_frame_to_size f tw th).width = tw := rfl

theorem pad_frame_height (f : Img) (tw th : Nat) :
    (pad_frame_to_size f tw th).height = th := rfl

theorem foldl_paste_dims {β : Type} (g : Img → β → Img)
    (hw : ∀ canv p, (g canv p).width = canv.width)
    (hh : ∀ canv p, (g canv p).height = canv.height) :
    ∀ (l : List β) (base : Img),
      (l.foldl g base).width = base.width ∧ (l.foldl g base).height = base.height := by
  intro l
  induction l with
  | nil => intro base; exact ⟨rfl, rfl⟩
  | cons p l ih =>
    intro base
    rw [List.foldl_cons]
    obtain ⟨h1, h2⟩ := ih (g base p)
    rw [h1, h2, hw, hh]
    exact ⟨rfl, rfl⟩

theorem gridPlace_of_pos (frames : List Img) (mw mh : Nat) (cols rows pad : Int)
    (hcols : 1 ≤ cols) (hrows : 1 ≤ rows) (hpad : 0 ≤ pad) :
    gridPlace frames mw mh cols rows pad =
      some (frames.enum.foldl
        (fun canv p =>
          paste canv p.2 ((Int.fmod (p.1 : Int) cols) * ((mw : Int) + pad))
            ((Int.fdiv (p.1 : Int) cols) * ((mh : Int) + pad)))
        (newImg (cols * ((mw : Int) + pad) - pad).toNat
          ((rows * ((mh : Int) + pad) - pad)).toNat)) := by
  have hw : 0 ≤ cols * ((mw : Int) + pad) - pad := by
    have h1 : ((mw : Int) + pad) ≤ cols * ((mw : Int) + pad) :=
      le_mul_of_one_le_left (by positivity) hcols
    have h2 : (0 : Int) ≤ (mw : Int) := Int.ofNat_nonneg _
    omega
  have hh : 0 ≤ rows * ((mh : Int) + pad) - pad := by
    have h1 : ((mh : Int) + pad) ≤ rows * ((mh : Int) + pad) :=
      le_mul_of_one_le_left (by positivity) hrows
    have h2 : (0 : Int) ≤ (mh : Int) := Int.ofNat_nonneg _
    omega
  unfold gridPlace
  rw [if_neg (by omega), if_neg (by omega)]

/-- C2: composing with an empty region list always fails (the Python
code raises while unpacking the sorted empty zip, or in `max()` over the
empty frame sequence), so an image with no foreground pixels never
yields a silent empty canvas. -/
theorem C2_empty_regions_error (img : Img) (config : LayoutConfig) :
    crop_and_process img [] config = none := by
  have h1 : scaleStage config.scale_factor ([] : List Img) = some [] := by
    unfold scaleStage scaleAll
    split <;> rfl
  have h2 : sortStage config.sort_by_position ([] : List (Region × Img)) = [] := by
    unfold sortStage pySorted
    split <;> rfl
  unfold crop_and_process
  simp only [List.map_nil, h1, List.zip_nil_right, h2]

/-! ## The sort stage -/



theorem not_keyLe {p q : Region × Img} (h : ¬ keyLe p q) :
    keyLe q p ∧ sortKey q ≠ sortKey p := by
  unfold keyLe sortKey at *
  dsimp only at *
  rw [Ne, Prod.mk.injEq]
  push_neg at h
  constructor
  · omega
  · omega

theorem filter_orderedInsert (k : Int × Int) (a : Region × Img) :
    ∀ l : List (Region × Img),
      (List.orderedInsert keyLe a l).filter (fun p => decide (sortKey p = k)) =
        if sortKey a = k then
          a :: l.filter (fun p => decide (sortKey p = k))
        else l.filter (fun p => decide (sortKey p = k)) := by
  intro l
  induction l with
  | nil =>
    rw [List.orderedInsert_nil, List.filter_cons, List.filter_nil]
    by_cases ha : sortKey a = k
    · rw [if_pos (by simp [ha]), if_pos ha]
    · rw [if_neg (by simp [ha]), if_neg ha]
  | cons b l ih =>
    show (if keyLe a b then a :: b :: l else
        b :: List.orderedInsert keyLe a l).filter (fun p => decide (sortKey p = k)) = _
    by_cases hab : keyLe a b
    · rw [if_pos hab, List.filter_cons, List.filter_cons]
      by_cases ha : sortKey a = k
      · rw [if_pos (by simp [ha]), if_pos ha]
      · rw [if_neg (by simp [ha]), if_neg ha]
    · rw [if_neg hab]
      obtain ⟨hba, hne⟩ := not_keyLe hab
      rw [List.filter_cons, ih]
      by_cases hb : sortKey b = k
      · have ha : ¬ sortKey a = k := fun ha => hne (by rw [hb, ha])
        rw [if_pos (by simp [hb]), if_neg ha, if_neg ha, List.filter_cons,
          if_pos (by simp [hb])]
      · by_cases ha : sortKey a = k
        · rw [if_neg (by simp [hb]), if_pos ha, if_pos ha, List.filter_cons,
            if_neg (by simp [hb])]
        · rw [if_neg (by simp [hb]), if_neg ha, if_neg ha, List.filter_cons,
            if_neg (by simp [hb])]

theorem filter_insertionSort (k : Int × Int) :
    ∀ l : List (Region × Img),
      (List.insertionSort keyLe l).filter (fun p => decide (sortKey p = k)) =
        l.filter (fun p => decide (sortKey p = k)) := by
  intro l
  induction l with
  | nil => rfl
  | cons a l ih =>
    show (List.orderedInsert keyLe a (List.insertionSort keyLe l)).filter
        (fun p => decide (sortKey p = k)) = _
    rw [filter_orderedInsert, ih, List.filter_cons]
    by_cases ha : sortKey a = k
    · rw [if_pos ha, if_pos (by simp [ha])]
    · rw [if_neg ha, if_neg (by simp [ha])]

/-- C4: with `sort_by_position` on, the (Region, Frame) pairs are
stably sorted by ascending `(y_min, x_min)` of the original region: the
result is a permutation, sorted by the lexicographic key order; for any
fixed key the subsequence with that key keeps discovery order (the
stable tiebreak); and of two entries with distinct keys the earlier one
has the strictly smaller `(y_min, x_min)`. -/
theorem C4_sort_stable (pairs : List (Region × Img)) :
    (sortStage true pairs).Perm pairs ∧
    (sortStage true pairs).Pairwise keyLe ∧
    (∀ k : Int × Int, (sortStage true pairs).filter (fun p => decide (sortKey p = k)) =
      pairs.filter (fun p => decide (sortKey p = k))) ∧
    (∀ (i j : Fin (sortStage true pairs).length), (i : Nat) < (j : Nat) →
      sortKey ((sortStage true pairs).get i) ≠ sortKey ((sortStage true pairs).get j) →
      ((sortStage true pairs).get i).1.y0 < ((sortStage true pairs).get j).1.y0 ∨
        (((sortStage true pairs).get i).1.y0 = ((sortStage true pairs).get j).1.y0 ∧
          ((sortStage true pairs).get i).1.x0 < ((sortStage true pairs).get j).1.x0)) := by
  have hsorted : (sortStage true pairs).Pairwise keyLe := by
    show (if true = true then pySorted pairs else pairs).Pairwise keyLe
    rw [if_pos rfl]
    exact List.sorted_insertionSort keyLe pairs
  refine ⟨?_, hsorted, ?_, ?_⟩
  · exact sortStage_perm true pairs
  · intro k
    show (if true = true then pySorted pairs else pairs).filter _ =
      pairs.filter _
    rw [if_pos rfl]
    exact filter_insertionSort k pairs
  · intro i j hij hne
    have hle : keyLe ((sortStage true pairs).get i) ((sortStage true pairs).get j) :=
      List.Sorted.rel_get_of_lt hsorted hij
    have hne' : ((sortStage true pairs).get i).1.y0 ≠ ((sortStage true pairs).get j).1.y0 ∨
        ((sortStage true pairs).get i).1.x0 ≠ ((sortStage true pairs).get j).1.x0 := by
      by_contra hcon
      push_neg at hcon
      exact hne (by unfold sortKey; rw [hcon.1, hcon.2])
    unfold keyLe sortKey at hle
    dsimp only at hle
    omega

/-! ## Normalize and round trip -/

/-- C7: in the normalize stage every frame is pasted into a fresh fully
transparent canvas of the maximal frame size at the centred offset
`((max_w - w) // 2, (max_h - h) // 2)` (floor division): the result has
size exactly `max_w × max_h`, every canvas pixel inside the centred
rectangle shows the frame and every other canvas pixel is transparent. -/
theorem C7_normalize (frames : List Img) (f : Img) (_hf : f ∈ frames)
    (x y : Int) (hx0 : 0 ≤ x) (hx1 : x < (maxW frames : Int))
    (hy0 : 0 ≤ y) (hy1 : y < (maxH frames : Int)) :
    (pad_frame_to_size f (maxW frames) (maxH frames)).width = maxW frames ∧
    (pad_frame_to_size f (maxW frames) (maxH frames)).height = maxH frames ∧
    (pad_frame_to_size f (maxW frames) (maxH frames)).px x y =
      (if Int.fdiv ((maxW frames : Int) - f.width) 2 ≤ x ∧
          x < Int.fdiv ((maxW frames : Int) - f.width) 2 + f.width ∧
          Int.fdiv ((maxH frames : Int) - f.height) 2 ≤ y ∧
          y < Int.fdiv ((maxH frames : Int) - f.height) 2 + f.height then
        f.px (x - Int.fdiv ((maxW frames : Int) - f.width) 2)
          (y - Int.fdiv ((maxH frames : Int) - f.height) 2)
      else (0, 0, 0, 0)) := by
  refine ⟨rfl, rfl, ?_⟩
  show (paste (newImg (maxW frames) (maxH frames)) f
      (Int.fdiv ((maxW frames : Int) - f.width) 2)
      (Int.fdiv ((maxH frames : Int) - f.height) 2)).px x y = _
  unfold paste newImg
  dsimp only
  by_cases h : Int.fdiv ((maxW frames : Int) - f.width) 2 ≤ x ∧
      x < Int.fdiv ((maxW frames : Int) - f.width) 2 + f.width ∧
      Int.fdiv ((maxH frames : Int) - f.height) 2 ≤ y ∧
      y < Int.fdiv ((maxH frames : Int) - f.height) 2 + f.height
  · rw [if_pos ⟨h.1, h.2.1, h.2.2.1, h.2.2.2, hx0, hx1, hy0, hy1⟩, if_pos h]
  · rw [if_neg ?_, if_neg h]
    intro hcon
    exact h ⟨hcon.1, hcon.2.1, hcon.2.2.1, hcon.2.2.2.1⟩


theorem C7_normalize_witness :
    ((crop imgTwoDots ⟨0, 0, 1, 1⟩ ∈ framesC7) ∧ 0 ≤ (1 : Int) ∧
      (1 : Int) < (maxW framesC7 : Int) ∧ 0 ≤ (1 : Int) ∧
      (1 : Int) < (maxH framesC7 : Int)) ∧
    ((pad_frame_to_size (crop imgTwoDots ⟨0, 0, 1, 1⟩) (maxW framesC7)
        (maxH framesC7)).width = maxW framesC7 ∧
     (pad_frame_to_size (crop imgTwoDots ⟨0, 0, 1, 1⟩) (maxW framesC7)
        (maxH framesC7)).height = maxH framesC7 ∧
     (pad_frame_to_size (crop imgTwoDots ⟨0, 0, 1, 1⟩) (maxW framesC7)
        (maxH framesC7)).px 1 1 =
      (if Int.fdiv ((maxW framesC7 : Int) - (crop imgTwoDots ⟨0, 0, 1, 1⟩).width) 2 ≤ 1 ∧
          (1 : Int) < Int.fdiv ((maxW framesC7 : Int) -
            (crop imgTwoDots ⟨0, 0, 1, 1⟩).width) 2 + (crop imgTwoDots ⟨0, 0, 1, 1⟩).width ∧
          Int.fdiv ((maxH framesC7 : Int) - (crop imgTwoDots ⟨0, 0, 1, 1⟩).height) 2 ≤ 1 ∧
          (1 : Int) < Int.fdiv ((maxH framesC7 : Int) -
            (crop imgTwoDots ⟨0, 0, 1, 1⟩).height) 2 + (crop imgTwoDots ⟨0, 0, 1, 1⟩).height then
        (crop imgTwoDots ⟨0, 0, 1, 1⟩).px
          (1 - Int.fdiv ((maxW framesC7 : Int) - (crop imgTwoDots ⟨0, 0, 1, 1⟩).width) 2)
          (1 - Int.fdiv ((maxH framesC7 : Int) - (crop imgTwoDots ⟨0, 0, 1, 1⟩).height) 2)
      else (0, 0, 0, 0))) :=
  ⟨⟨List.mem_cons_self _ _, by decide, by decide, by decide, by decide⟩,
    C7_normalize framesC7 (crop imgTwoDots ⟨0, 0, 1, 1⟩) (List.mem_cons_self _ _)
      1 1 (by decide) (by decide) (by decide) (by decide)⟩

/-- C8: with the identity configuration (`scale_factor = 1`, so the
scale stage passes the cropped frames through unchanged; `padding` and
`frame_repeat` do not touch frame contents), pasting the frame cropped
from any discovered region back at the region's recorded offset
reproduces the original bounding-box pixel content exactly. -/
theorem C8_roundtrip (img base : Img) (r : Region)
    (hr : r ∈ get_connected_regions img)
    (hbw : base.width = img.width) (hbh : base.height = img.height)
    (x y : Int) (hx0 : r.x0 ≤ x) (hx1 : x < r.x1) (hy0 : r.y0 ≤ y) (hy1 : y < r.y1) :
    scaleStage 1 ((get_connected_regions img).map (crop img)) =
      some ((get_connected_regions img).map (crop img)) ∧
    (paste base (crop img r) r.x0 r.y0).px x y = img.px x y := by
  refine ⟨scaleStage_one _, ?_⟩
  obtain ⟨hb1, hb2, hb3, hb4, hb5, hb6⟩ := regions_in_bounds img r hr
  have hcw : ((crop img r).width : Int) = r.x1 - r.x0 := by
    show (((r.x1 - r.x0).toNat : Int)) = r.x1 - r.x0
    omega
  have hch : ((crop img r).height : Int) = r.y1 - r.y0 := by
    show (((r.y1 - r.y0).toNat : Int)) = r.y1 - r.y0
    omega
  show (if r.x0 ≤ x ∧ x < r.x0 + ((crop img r).width : Int) ∧
      r.y0 ≤ y ∧ y < r.y0 + ((crop img r).height : Int) ∧
      0 ≤ x ∧ x < (base.width : Int) ∧ 0 ≤ y ∧ y < (base.height : Int) then
    (crop img r).px (x - r.x0) (y - r.y0)
  else base.px x y) = img.px x y
  rw [if_pos]
  · show img.read (r.x0 + (x - r.x0)) (r.y0 + (y - r.y0)) = img.px x y
    have hxx : r.x0 + (x - r.x0) = x := by omega
    have hyy : r.y0 + (y - r.y0) = y := by omega
    rw [hxx, hyy]
    unfold Img.read
    rw [if_pos]
    constructor
    · omega
    · refine ⟨by omega, by omega, by omega⟩
  · rw [hcw, hch, hbw, hbh]
    refine ⟨hx0, by omega, hy0, by omega, by omega, by omega, by omega, by omega⟩

theorem C8_roundtrip_witness :
    ((⟨2, 0, 3, 1⟩ : Region) ∈ get_connected_regions imgTwoDots ∧
      (newImg 3 1).width = imgTwoDots.width ∧ (newImg 3 1).height = imgTwoDots.height ∧
      (⟨2, 0, 3, 1⟩ : Region).x0 ≤ (2 : Int) ∧ (2 : Int) < (⟨2, 0, 3, 1⟩ : Region).x1 ∧
      (⟨2, 0, 3, 1⟩ : Region).y0 ≤ (0 : Int) ∧ (0 : Int) < (⟨2, 0, 3, 1⟩ : Region).y1) ∧
    (scaleStage 1 ((get_connected_regions imgTwoDots).map (crop imgTwoDots)) =
      some ((get_connected_regions imgTwoDots).map (crop imgTwoDots)) ∧
     (paste (newImg 3 1) (crop imgTwoDots ⟨2, 0, 3, 1⟩) (⟨2, 0, 3, 1⟩ : Region).x0
        (⟨2, 0, 3, 1⟩ : Region).y0).px 2 0 = imgTwoDots.px 2 0) :=
  ⟨⟨by decide, rfl, rfl, by decide, by decide, by decide, by decide⟩,
    C8_roundtrip imgTwoDots (newImg 3 1) ⟨2, 0, 3, 1⟩ (by decide) rfl rfl
      2 0 (by decide) (by decide) (by decide) (by decide)⟩

/-! ## Scaling: dimensions and the degenerate-frame error (C6) -/

/-- C6: when `scale_factor ≠ 1` (and positive), every frame of size
`(w, h)` is scaled to `(⌊w * s⌋, ⌊h * s⌋)`, each dimension computed
independently — when both computed dimensions are at least 1 the
resize succeeds with exactly those dimensions; and whenever either
computed dimension is zero the `resize` call raises (PIL rejects
target sizes below 1), so `crop_and_process` fails with an error
rather than producing a zero-area frame. -/
theorem C6_degenerate_scale (img : Img) (regions : List Region) (config : LayoutConfig)
    (hs1 : config.scale_factor ≠ 1) (hs : 0 < config.scale_factor) :
    (∀ f : Img,
      pyInt ((f.width : ℚ) * config.scale_factor) =
        ⌊(f.width : ℚ) * config.scale_factor⌋ ∧
      pyInt ((f.height : ℚ) * config.scale_factor) =
        ⌊(f.height : ℚ) * config.scale_factor⌋ ∧
      (1 ≤ ⌊(f.width : ℚ) * config.scale_factor⌋ →
        1 ≤ ⌊(f.height : ℚ) * config.scale_factor⌋ →
        scaleFrame config.scale_factor f = some (resize f
          ⌊(f.width : ℚ) * config.scale_factor⌋.toNat
          ⌊(f.height : ℚ) * config.scale_factor⌋.toNat)) ∧
      ((⌊(f.width : ℚ) * config.scale_factor⌋ = 0 ∨
        ⌊(f.height : ℚ) * config.scale_factor⌋ = 0) →
        scaleFrame config.scale_factor f = none)) ∧
    (∀ f ∈ regions.map (fun box => crop img box),
      (⌊(f.width : ℚ) * config.scale_factor⌋ = 0 ∨
        ⌊(f.height : ℚ) * config.scale_factor⌋ = 0) →
      crop_and_process img regions config = none) := by
  have hper : ∀ f : Img,
      pyInt ((f.width : ℚ) * config.scale_factor) =
        ⌊(f.width : ℚ) * config.scale_factor⌋ ∧
      pyInt ((f.height : ℚ) * config.scale_factor) =
        ⌊(f.height : ℚ) * config.scale_factor⌋ := by
    intro f
    constructor
    · exact pyInt_eq_floor (mul_nonneg (by positivity) (le_of_lt hs))
    · exact pyInt_eq_floor (mul_nonneg (by positivity) (le_of_lt hs))
  have hzero : ∀ f : Img,
      (⌊(f.width : ℚ) * config.scale_factor⌋ = 0 ∨
        ⌊(f.height : ℚ) * config.scale_factor⌋ = 0) →
      scaleFrame config.scale_factor f = none := by
    intro f hz
    obtain ⟨h1, h2⟩ := hper f
    refine scaleFrame_eq_none f ?_
    rcases hz with hz | hz
    · refine Or.inl ?_
      rw [h1, hz]
      decide
    · refine Or.inr ?_
      rw [h2, hz]
      decide
  constructor
  · intro f
    obtain ⟨h1, h2⟩ := hper f
    refine ⟨h1, h2, ?_, hzero f⟩
    intro hw hh
    rw [scaleFrame_eq_some f (by rw [h1]; exact hw) (by rw [h2]; exact hh), h1, h2]
  · intro f hf hz
    have hstage : scaleStage config.scale_factor
        (regions.map (fun box => crop img box)) = none := by
      unfold scaleStage
      rw [if_pos hs1]
      exact scaleAll_none hf (hzero f hz)
    unfold crop_and_process
    simp only [hstage]

theorem C6_degenerate_scale_witness :
    (cfgHalf.scale_factor ≠ 1 ∧ (0 : ℚ) < cfgHalf.scale_factor ∧
      crop imgOneDot ⟨0, 0, 1, 1⟩ ∈
        ([⟨0, 0, 1, 1⟩] : List Region).map (fun box => crop imgOneDot box) ∧
      ⌊((crop imgOneDot ⟨0, 0, 1, 1⟩).width : ℚ) * cfgHalf.scale_factor⌋ = 0) ∧
    crop_and_process imgOneDot [⟨0, 0, 1, 1⟩] cfgHalf = none :=
  ⟨⟨(by show (1 / 2 : ℚ) ≠ 1; norm_num), (by show (0 : ℚ) < 1 / 2; norm_num),
      List.mem_map_of_mem _ (List.mem_cons_self _ _),
      (by show ⌊(((1 : Int) - 0).toNat : ℚ) * (1 / 2 : ℚ)⌋ = 0; norm_num)⟩,
    (C6_degenerate_scale imgOneDot [⟨0, 0, 1, 1⟩] cfgHalf
        (by show (1 / 2 : ℚ) ≠ 1; norm_num) (by show (0 : ℚ) < 1 / 2; norm_num)).2
      (crop imgOneDot ⟨0, 0, 1, 1⟩)
      (List.mem_map_of_mem _ (List.mem_cons_self _ _))
      (Or.inl (by show ⌊(((1 : Int) - 0).toNat : ℚ) * (1 / 2 : ℚ)⌋ = 0; norm_num))⟩

/-! ## Grid overflow (C3) -/


/-- C3 names a check the code does not perform: with two frames and an
explicit 1×1 grid (2 frames > 1 cell), `crop_and_process` does not fail
with a `GridOverflow` error — it returns a one-cell 1×1 canvas, and the
second frame (pasted at offset (0, 1), outside the canvas) is silently
clipped away. -/
theorem C3_overflow_not_error :
    (crop_and_process imgTwoDots [⟨0, 0, 1, 1⟩, ⟨2, 0, 3, 1⟩] cfgGrid11).map
        (fun c => (c.width, c.height)) = some (1, 1) ∧
    ([⟨0, 0, 1, 1⟩, ⟨2, 0, 3, 1⟩] : List Region).length *
      cfgGrid11.frame_repeat.toNat = 2 ∧
    1 * 1 < 2 := by
  decide

/-! ## Grid placement (C5) -/



theorem grid_size_nonneg (k : Int) (m : Nat) (pad : Int) (hk : 1 ≤ k)
    (hpad : 0 ≤ pad) : 0 ≤ k * ((m : Int) + pad) - pad := by
  have h1 : ((m : Int) + pad) ≤ k * ((m : Int) + pad) :=
    le_mul_of_one_le_left (by positivity) hk
  have h2 : (0 : Int) ≤ (m : Int) := Int.ofNat_nonneg _
  omega

/-- C5: for a non-empty region list and a well-formed configuration,
whenever the scale stage succeeds (its output frame list is given: for
`scale_factor = 1` it always does, otherwise PIL raises on a frame
scaled to a zero dimension), composition succeeds and the resulting
canvas realizes the claim's grid formulas: `columns` is the configured
value or `floor (sqrt total)` (at least 1), `rows` is the configured
value or `ceil (total/columns)`, the canvas measures
`columns*(max_w+padding) - padding` by `rows*(max_h+padding) - padding`,
and frame `i` is pasted at offset
`((i mod columns)*(max_w+padding), (i div columns)*(max_h+padding))`. -/
theorem C5_grid (img : Img) (regions : List Region) (config : LayoutConfig)
    (hne : regions ≠ []) (frames1 : List Img)
    (hsc : scaleStage config.scale_factor
      (regions.map (fun box => crop img box)) = some frames1)
    (hcols : ∀ c, config.output_columns = some c → 0 < c)
    (hrows : ∀ r, config.output_rows = some r → 0 < r)
    (hpad : 0 ≤ config.target_padding) (hrep : 0 < config.frame_repeat) :
    ∃ (frames : List Img) (mw mh : Nat) (canvas : Img),
      crop_and_process img regions config = some canvas ∧
      frames.length = regions.length * config.frame_repeat.toNat ∧
      (∀ f ∈ frames, f.width = mw ∧ f.height = mh) ∧
      1 ≤ colsSpec config.output_columns frames.length ∧
      1 ≤ rowsSpec config.output_rows
        (colsSpec config.output_columns frames.length) frames.length ∧
      (canvas.width : Int) =
        colsSpec config.output_columns frames.length *
          ((mw : Int) + config.target_padding) - config.target_padding ∧
      (canvas.height : Int) =
        rowsSpec config.output_rows
          (colsSpec config.output_columns frames.length) frames.length *
          ((mh : Int) + config.target_padding) - config.target_padding ∧
      canvas = frames.enum.foldl
        (fun canv p => paste canv p.2
          (((p.1 : Int) % colsSpec config.output_columns frames.length) *
            ((mw : Int) + config.target_padding))
          (((p.1 : Int) / colsSpec config.output_columns frames.length) *
            ((mh : Int) + config.target_padding)))
        (newImg canvas.width canvas.height) := by
  have hlen1 : frames1.length = regions.length := by
    rw [scaleStage_length hsc, List.length_map]
  have hzlen : (regions.zip frames1).length = regions.length := by
    rw [List.length_zip, hlen1, min_self]
  have hplen : (sortStage config.sort_by_position (regions.zip frames1)).length =
      regions.length := by
    rw [sortStage_length, hzlen]
  have hpne : sortStage config.sort_by_position (regions.zip frames1) ≠ [] := by
    intro hnil
    rw [hnil] at hplen
    exact hne (List.eq_nil_of_length_eq_zero hplen.symm)
  obtain ⟨p0, ps, hps⟩ := List.exists_cons_of_ne_nil hpne
  -- the frame list entering grid placement
  set frames4 : List Img := repStage config.frame_repeat
    (((p0 :: ps).map Prod.snd).map
      (fun f => pad_frame_to_size f (maxW ((p0 :: ps).map Prod.snd))
        (maxH ((p0 :: ps).map Prod.snd)))) with hframes4
  have htot : frames4.length = regions.length * config.frame_repeat.toNat := by
    rw [hframes4, repStage_length, List.length_map, List.length_map, ← hps, hplen]
  have htotpos : 1 ≤ frames4.length := by
    rw [htot]
    have h1 : 1 ≤ regions.length := List.length_pos.mpr hne
    have h2 : 1 ≤ config.frame_repeat.toNat := by omega
    exact Nat.one_le_iff_ne_zero.mpr (by positivity)
  have hcols1 : 1 ≤ colsSpec config.output_columns frames4.length := by
    cases hoc : config.output_columns with
    | some c =>
      show 1 ≤ colsSpec (some c) frames4.length
      exact hcols c hoc
    | none =>
      show 1 ≤ ((Nat.sqrt frames4.length : Nat) : Int)
      have := Nat.sqrt_pos.mpr (by omega : 0 < frames4.length)
      omega
  have hresolve : resolveCols config.output_columns frames4.length =
      colsSpec config.output_columns frames4.length := by
    cases hoc : config.output_columns with
    | some c =>
      have := hcols c hoc
      show (if c = 0 then ((Nat.sqrt frames4.length : Nat) : Int) else c) = c
      rw [if_neg (by omega)]
    | none => rfl
  have hrows1 : 1 ≤ rowsSpec config.output_rows
      (colsSpec config.output_columns frames4.length) frames4.length := by
    cases hor : config.output_rows with
    | some r =>
      show 1 ≤ r
      exact hrows r hor
    | none =>
      show 1 ≤ (((frames4.length + (colsSpec config.output_columns frames4.length).toNat
          - 1) / (colsSpec config.output_columns frames4.length).toNat : Nat) : Int)
      have hc1 : 1 ≤ (colsSpec config.output_columns frames4.length).toNat := by omega
      have : 1 ≤ (frames4.length + (colsSpec config.output_columns frames4.length).toNat
          - 1) / (colsSpec config.output_columns frames4.length).toNat :=
        Nat.one_le_div_iff (by omega) |>.mpr (by omega)
      omega
  have hceil : Int.fdiv ((frames4.length : Int) +
      colsSpec config.output_columns frames4.length - 1)
      (colsSpec config.output_columns frames4.length) =
      rowsSpec none (colsSpec config.output_columns frames4.length) frames4.length := by
    show _ = (((frames4.length + (colsSpec config.output_columns frames4.length).toNat
        - 1) / (colsSpec config.output_columns frames4.length).toNat : Nat) : Int)
    obtain ⟨k, hk⟩ : ∃ k : Nat, colsSpec config.output_columns frames4.length = (k : Int) :=
      ⟨(colsSpec config.output_columns frames4.length).toNat, by omega⟩
    rw [hk, Int.toNat_natCast, Int.fdiv_eq_ediv _ (by omega),
      show ((frames4.length : Int) + (k : Int) - 1) =
        ((frames4.length + k - 1 : Nat) : Int) from by omega,
      Int.ofNat_tdiv, Int.tdiv_eq_ediv (Int.ofNat_nonneg _) (Int.ofNat_nonneg _)]
  -- the canvas produced by the paste loop
  have hw0 : 0 ≤ colsSpec config.output_columns frames4.length *
      ((maxW ((p0 :: ps).map Prod.snd) : Int) + config.target_padding) -
      config.target_padding :=
    grid_size_nonneg _ _ _ hcols1 hpad
  have hh0 : 0 ≤ rowsSpec config.output_rows
      (colsSpec config.output_columns frames4.length) frames4.length *
      ((maxH ((p0 :: ps).map Prod.snd) : Int) + config.target_padding) -
      config.target_padding :=
    grid_size_nonneg _ _ _ hrows1 hpad
  have hgrid : gridPlace frames4 (maxW ((p0 :: ps).map Prod.snd))
      (maxH ((p0 :: ps).map Prod.snd))
      (colsSpec config.output_columns frames4.length)
      (rowsSpec config.output_rows
        (colsSpec config.output_columns frames4.length) frames4.length)
      config.target_padding =
      some (frames4.enum.foldl
        (fun canv p =>
          paste canv p.2
            ((Int.fmod (p.1 : Int) (colsSpec config.output_columns frames4.length)) *
              ((maxW ((p0 :: ps).map Prod.snd) : Int) + config.target_padding))
            ((Int.fdiv (p.1 : Int) (colsSpec config.output_columns frames4.length)) *
              ((maxH ((p0 :: ps).map Prod.snd) : Int) + config.target_padding)))
        (newImg (colsSpec config.output_columns frames4.length *
            ((maxW ((p0 :: ps).map Prod.snd) : Int) + config.target_padding) -
            config.target_padding).toNat
          ((rowsSpec config.output_rows
              (colsSpec config.output_columns frames4.length) frames4.length *
            ((maxH ((p0 :: ps).map Prod.snd) : Int) + config.target_padding) -
            config.target_padding)).toNat)) :=
    gridPlace_of_pos _ _ _ _ _ _ hcols1 hrows1 hpad
  have hmain : crop_and_process img regions config =
      gridPlace frames4 (maxW ((p0 :: ps).map Prod.snd))
        (maxH ((p0 :: ps).map Prod.snd))
        (colsSpec config.output_columns frames4.length)
        (rowsSpec config.output_rows
          (colsSpec config.output_columns frames4.length) frames4.length)
        config.target_padding := by
    unfold crop_and_process
    simp only [hsc]
    rw [hps]
    dsimp only
    rw [← hframes4, hresolve]
    cases hor : config.output_rows with
    | some r =>
      have hrpos := hrows r hor
      dsimp only
      rw [if_neg (by omega)]
      rfl
    | none =>
      dsimp only
      rw [if_neg (by omega), hceil]
  have hdims := foldl_paste_dims
    (fun (canv : Img) (p : Nat × Img) =>
      paste canv p.2
        ((Int.fmod (p.1 : Int) (colsSpec config.output_columns frames4.length)) *
          ((maxW ((p0 :: ps).map Prod.snd) : Int) + config.target_padding))
        ((Int.fdiv (p.1 : Int) (colsSpec config.output_columns frames4.length)) *
          ((maxH ((p0 :: ps).map Prod.snd) : Int) + config.target_padding)))
    (fun _ _ => rfl) (fun _ _ => rfl) frames4.enum
    (newImg (colsSpec config.output_columns frames4.length *
        ((maxW ((p0 :: ps).map Prod.snd) : Int) + config.target_padding) -
        config.target_padding).toNat
      ((rowsSpec config.output_rows
          (colsSpec config.output_columns frames4.length) frames4.length *
        ((maxH ((p0 :: ps).map Prod.snd) : Int) + config.target_padding) -
        config.target_padding)).toNat)
  have hfun : (fun (canv : Img) (p : Nat × Img) =>
      paste canv p.2
        ((Int.fmod (p.1 : Int) (colsSpec config.output_columns frames4.length)) *
          ((maxW ((p0 :: ps).map Prod.snd) : Int) + config.target_padding))
        ((Int.fdiv (p.1 : Int) (colsSpec config.output_columns frames4.length)) *
          ((maxH ((p0 :: ps).map Prod.snd) : Int) + config.target_padding))) =
      (fun (canv : Img) (p : Nat × Img) =>
      paste canv p.2
        (((p.1 : Int) % colsSpec config.output_columns frames4.length) *
          ((maxW ((p0 :: ps).map Prod.snd) : Int) + config.target_padding))
        (((p.1 : Int) / colsSpec config.output_columns frames4.length) *
          ((maxH ((p0 :: ps).map Prod.snd) : Int) + config.target_padding))) := by
    funext canv p
    rw [Int.fmod_eq_emod _ (by omega), Int.fdiv_eq_ediv _ (by omega)]
  refine ⟨frames4, maxW ((p0 :: ps).map Prod.snd), maxH ((p0 :: ps).map Prod.snd),
    _, by rw [hmain, hgrid], htot, ?_, hcols1, hrows1, ?_, ?_, ?_⟩
  · intro f hf
    rcases List.mem_map.mp (mem_repStage hf) with ⟨g, _, rfl⟩
    exact ⟨pad_frame_width g _ _, pad_frame_height g _ _⟩
  · rw [hdims.1]
    show (((colsSpec config.output_columns frames4.length *
      ((maxW ((p0 :: ps).map Prod.snd) : Int) + config.target_padding) -
      config.target_padding).toNat : Int)) = _
    omega
  · rw [hdims.2]
    show (((rowsSpec config.output_rows
      (colsSpec config.output_columns frames4.length) frames4.length *
      ((maxH ((p0 :: ps).map Prod.snd) : Int) + config.target_padding) -
      config.target_padding).toNat : Int)) = _
    omega
  · rw [hdims.1, hdims.2, hfun]
    exact rfl


theorem C5_grid_witness :
    (([⟨0, 0, 1, 1⟩, ⟨2, 0, 3, 1⟩] : List Region) ≠ [] ∧
      scaleStage cfgDefault.scale_factor
        (([⟨0, 0, 1, 1⟩, ⟨2, 0, 3, 1⟩] : List Region).map
          (fun box => crop imgTwoDots box)) =
        some (([⟨0, 0, 1, 1⟩, ⟨2, 0, 3, 1⟩] : List Region).map
          (fun box => crop imgTwoDots box)) ∧
      (∀ c, cfgDefault.output_columns = some c → 0 < c) ∧
      (∀ r, cfgDefault.output_rows = some r → 0 < r) ∧
      0 ≤ cfgDefault.target_padding ∧ 0 < cfgDefault.frame_repeat) ∧
    (∃ (frames : List Img) (mw mh : Nat) (canvas : Img),
      crop_and_process imgTwoDots [⟨0, 0, 1, 1⟩, ⟨2, 0, 3, 1⟩] cfgDefault = some canvas ∧
      frames.length = ([⟨0, 0, 1, 1⟩, ⟨2, 0, 3, 1⟩] : List Region).length *
        cfgDefault.frame_repeat.toNat ∧
      (∀ f ∈ frames, f.width = mw ∧ f.height = mh) ∧
      1 ≤ colsSpec cfgDefault.output_columns frames.length ∧
      1 ≤ rowsSpec cfgDefault.output_rows
        (colsSpec cfgDefault.output_columns frames.length) frames.length ∧
      (canvas.width : Int) =
        colsSpec cfgDefault.output_columns frames.length *
          ((mw : Int) + cfgDefault.target_padding) - cfgDefault.target_padding ∧
      (canvas.height : Int) =
        rowsSpec cfgDefault.output_rows
          (colsSpec cfgDefault.output_columns frames.length) frames.length *
          ((mh : Int) + cfgDefault.target_padding) - cfgDefault.target_padding ∧
      canvas = frames.enum.foldl
        (fun canv p => paste canv p.2
          (((p.1 : Int) % colsSpec cfgDefault.output_columns frames.length) *
            ((mw : Int) + cfgDefault.target_padding))
          (((p.1 : Int) / colsSpec cfgDefault.output_columns frames.length) *
            ((mh : Int) + cfgDefault.target_padding)))
        (newImg canvas.width canvas.height)) :=
  ⟨⟨(by decide), scaleStage_one _, fun c h => (by cases h), fun r h => (by cases h),
      (by decide), (by decide)⟩,
    C5_grid imgTwoDots [⟨0, 0, 1, 1⟩, ⟨2, 0, 3, 1⟩] cfgDefault (by decide)
      (([⟨0, 0, 1, 1⟩, ⟨2, 0, 3, 1⟩] : List Region).map
        (fun box => crop imgTwoDots box))
      (scaleStage_one _) (fun c h => (by cases h)) (fun r h => (by cases h))
      (by decide) (by decide)⟩

end Sprite
